import Mathlib

/-!
# libchunk: the `Move` synchronisation engine (bits/move.go)

`Move` reads keys from a key reader, starts one `work` goroutine per key that is
not skipped by the primed index, hands every item to the buffered channel
`itemCh` and, in its own goroutine, drains that channel in order, waiting for
the result of each item before writing its key to the key writer.

The embedding is a step function over an explicit state: the fan-out goroutine,
the channel buffer, the fan-in loop and the worker of every live item are
fields of `State`, one `Action` is one scheduling decision, and a schedule is a
list of actions.  Statements quantified over all schedules therefore speak
about every interleaving of the goroutines.

* A goroutine moves from one blocking point to the next in one step: fan-out
  from the top of its loop to its send, a worker through one call on a store,
  fan-in through one receive and what follows it up to the next receive.
* The result channel of an item is unbuffered and has one sender and one
  receiver, so its state is the state of the worker that feeds it; it is kept
  in the item (`item.resCh`).  A worker whose result was received is gone.
* Goroutines keep running after `Move` has returned, as they do in the source.
* `State.out` lists the keys for which `kw.Write` returned nil, in order;
  `State.trace` lists the calls made on the collaborators.

General facts proved below: the invariant `Inv` of the reachable states
(`Move_inv`), the value and output of every execution that returned
(`Move_returned`), finiteness of every execution (`Move_terminates`) and the
absence of deadlocks (`Move_extends`).

The last part models `Split` and `Join` from the specification, since only their
test is among the sources.
-/

namespace bits

/-! ## Errors -/

/-- Go `error` values: the sentinel `io.EOF`, or any other error with its text.
A nil error is `none : Option Error`. -/
inductive Error where
  | EOF : Error
  | New (text : String) : Error
deriving DecidableEq, Repr

/-- The text of an error, `err.Error()`. -/
def Error.message : Error → String
  | .EOF => "EOF"
  | .New text => text

/-- Modelled from the spec: the key type `K` is declared outside `bits/move.go`
(section 3: a fixed-length opaque byte sequence); it is a type parameter here,
and its rendering by the `%s` verb of `fmt.Errorf` is taken as given. -/
class KeyString (K : Type) where
  str : K → String

/-- `fmt.Errorf(pre + "%v", err)`. -/
def Errorf (pre : String) (err : Error) : Error :=
  .New (pre ++ err.message)

/-- `fmt.Errorf(pre + "'%s'" + mid + "%v", key, err)`. -/
def ErrorfKey {K : Type} [KeyString K] (pre : String) (key : K) (mid : String) (err : Error) :
    Error :=
  .New (pre ++ "'" ++ KeyString.str key ++ "'" ++ mid ++ err.message)

/-! ## The collaborators of `Move` (interfaces only; implementations are external) -/

/-- Modelled from the spec: the interface `KeyIndex` is declared outside
`bits/move.go` (section 6: `Has(Key) -> bool`), set membership over keys. -/
structure KeyIndex (K : Type) where
  Has : K → Bool

/-- Modelled from the spec: the interface `RemoteStore` is declared outside
`bits/move.go` (section 6: `Index(into KeyIndex) -> error`).  `Index` fills the
given index in place and reports an error; the filled index is returned next to
the error. -/
structure RemoteStore (K : Type) where
  Index : KeyIndex K → KeyIndex K × Option Error

/-- Modelled from the spec: the interface `Store` is declared outside
`bits/move.go` (section 6: `Get(Key) -> (bytes, error)`, `Put(Key, bytes) ->
error`; section 3: a mapping from key to blob).  The outcome of a call is a
function of its arguments.  `RemoteStore` is `some` exactly when the type
assertion `dst.(RemoteStore)` succeeds. -/
structure Store (K C : Type) where
  Get : K → Except Error C
  Put : K → C → Option Error
  RemoteStore : Option (RemoteStore K)

/-- Modelled from the spec: the type of `conf.Stores` is declared outside
`bits/move.go` (section 6: `Stores.MoveSrc()`, `Stores.MoveDst()` resolving
store handles). -/
structure StoreMap (K C : Type) where
  MoveSrc : Except Error (Store K C)
  MoveDst : Except Error (Store K C)

/-- Modelled from the spec: `Config` is declared outside `bits/move.go`; these are
the fields `Move` reads (section 6). -/
structure Config (K C : Type) where
  Stores : StoreMap K C
  Index : Option (KeyIndex K)
  MoveConcurrency : Nat

/-- Modelled from the spec: the interface `KeyReader` is declared outside
`bits/move.go` (section 6: `Read() -> (Key, error)`, exhaustion signalled by a
distinguished error).  A reader yields `keys` one by one and then fails with
`last.2`, which is `io.EOF` for a clean end; `last.1` is the key value returned
next to that error.  `Move` stops reading at the first error, so what a reader
would return after it is never observed; a reader that never fails is not
covered. -/
structure KeyReader (K : Type) where
  keys : List K
  last : K × Error

/-- The `n`-th call of `kr.Read()` (counting from 0). -/
def KeyReader.Read {K : Type} (kr : KeyReader K) (n : Nat) : K × Option Error :=
  match kr.keys[n]? with
  | some k => (k, none)
  | none => (kr.last.1, some kr.last.2)

/-- Modelled from the spec: the interface `KeyWriter` is declared outside
`bits/move.go` (section 6: `Write(Key) -> error`).  The result of a call may
depend on the keys written before. -/
structure KeyWriter (K : Type) where
  Write : List K → K → Option Error

/-! ## Observable calls -/

/-- Calls that `Move` and its goroutines make on their collaborators. -/
inductive Event (K C : Type) where
  | MoveSrc : Event K C
  | MoveDst : Event K C
  | Index : Event K C
  | Read : Event K C
  | Has (k : K) : Event K C
  | go (k : K) : Event K C
  | Get (k : K) : Event K C
  | Put (k : K) (chunk : C) : Event K C
  | Write (k : K) : Event K C

/-! ## State of a running `Move` -/

/-- State of the result channel of an item together with the `work` goroutine
that feeds it. -/
inductive Work (C : Type) where
  | started : Work C
  | got (chunk : C) : Work C
  | result (err : Option Error) : Work C

/-- The local type `item`: `resCh` is nil (`none`) for the item that carries a read
error. -/
structure item (K C : Type) where
  key : K
  resCh : Option (Work C)
  err : Option Error

/-- The fan-out goroutine. -/
inductive FanOut (K C : Type) where
  | idle : FanOut K C
  | reading : FanOut K C
  | sending (it : item K C) : FanOut K C
  | closed : FanOut K C

/-- The fan-in loop, which runs in the goroutine of `Move` itself. -/
inductive FanIn (K C : Type) where
  | ranging : FanIn K C
  | waiting (it : item K C) : FanIn K C
  | returned (err : Option Error) : FanIn K C

/-- Everything that changes while `Move` runs. -/
structure State (K C : Type) where
  fanout : FanOut K C
  itemCh : List (item K C)
  fanin : FanIn K C
  reads : Nat
  out : List K
  trace : List (Event K C)

/-- The variables that are fixed once the setup of `Move` is through. -/
structure Env (K C : Type) where
  kr : KeyReader K
  kw : KeyWriter K
  src : Store K C
  dst : Store K C
  idx : Option (KeyIndex K)
  MoveConcurrency : Nat

/-- One scheduling decision. -/
inductive Action where
  | fanout : Action
  | send : Action
  | fanin : Action
  | workHeld : Action
  | workQueued (i : Nat) : Action
  | workSending : Action
deriving DecidableEq, Repr

/-! ## Setup: lines 25-34 and 53-65 -/

/-- Store resolution and index priming.  Returns the calls made and either the
error `Move` returns or the resolved `src`, `dst` and `idx`. -/
def setup {K C : Type} (conf : Config K C) :
    List (Event K C) × Except Error (Store K C × Store K C × Option (KeyIndex K)) :=
  match conf.Stores.MoveSrc with
  | .error err => ([.MoveSrc], .error (Errorf "couldnt get store to move from: " err))
  | .ok src =>
    match conf.Stores.MoveDst with
    | .error err => ([.MoveSrc, .MoveDst], .error (Errorf "couldnt get store to move to: " err))
    | .ok dst =>
      match dst.RemoteStore, conf.Index with
      | some remote, some idx =>
        match remote.Index idx with
        | (_, some err) =>
          ([.MoveSrc, .MoveDst, .Index], .error (Errorf "failed to index remote: " err))
        | (idx, none) => ([.MoveSrc, .MoveDst, .Index], .ok (src, dst, some idx))
      | _, _ => ([.MoveSrc, .MoveDst], .ok (src, dst, none))

/-! ## The goroutines -/

/-- The condition `idx != nil && idx.Has(k)` of line 86. -/
def skip {K C : Type} (env : Env K C) (k : K) : Bool :=
  match env.idx with
  | some idx => idx.Has k
  | none => false

/-- The calls made by evaluating the condition of line 86. -/
def skipTrace {K C : Type} (env : Env K C) (k : K) : List (Event K C) :=
  match env.idx with
  | some _ => [.Has k]
  | none => []

/-- One step of the closure `work` (lines 37-51) for the item `it`: the call of
`src.Get`, or the call of `dst.Put`.  A worker that holds its result is blocked
on `it.resCh` and has no step of its own. -/
def work {K C : Type} [KeyString K] (env : Env K C) (it : item K C) :
    Option (item K C × Event K C) :=
  match it.resCh with
  | some .started =>
    match env.src.Get it.key with
    | .error err =>
      some ({ it with resCh := some (.result
        (some (ErrorfKey "failed to get chunk " it.key " from store: " err))) }, .Get it.key)
    | .ok chunk => some ({ it with resCh := some (.got chunk) }, .Get it.key)
  | some (.got chunk) =>
    match env.dst.Put it.key chunk with
    | some err =>
      some ({ it with resCh := some (.result
        (some (ErrorfKey "failed to put chunk " it.key " to remote: " err))) }, .Put it.key chunk)
    | none => some ({ it with resCh := some (.result none) }, .Put it.key chunk)
  | _ => none

/-- Where the fan-out goroutine continues once `itemCh <- it` went through: the
read-error item is followed by `break` and the deferred `close(itemCh)`. -/
def afterSend {K C : Type} (it : item K C) : FanOut K C :=
  match it.err with
  | some _ => .closed
  | none => .reading

/-- One iteration of the fan-out loop (lines 71-97) up to its send. -/
def fanOutStep {K C : Type} (env : Env K C) (s : State K C) : State K C :=
  match env.kr.Read s.reads with
  | (k, some err) =>
    match err with
    | .EOF => { s with fanout := .closed, reads := s.reads + 1, trace := s.trace ++ [.Read] }
    | _ =>
      { s with
        fanout := .sending
          { key := k, resCh := none, err := some (Errorf "failed to iterate into next key: " err) }
        reads := s.reads + 1
        trace := s.trace ++ [.Read] }
  | (k, none) =>
    if skip env k then
      { s with reads := s.reads + 1, trace := s.trace ++ .Read :: skipTrace env k }
    else
      { s with
        fanout := .sending { key := k, resCh := some .started, err := none }
        reads := s.reads + 1
        trace := s.trace ++ .Read :: (skipTrace env k ++ [.go k]) }

/-- The body of the fan-in loop after an item was received from `itemCh`
(lines 102-104). -/
def received {K C : Type} (s : State K C) (it : item K C) : State K C :=
  match it.err with
  | some err => { s with fanin := .returned (some (Errorf "failed to iterate: " err)) }
  | none => { s with fanin := .waiting it }

/-- The next receive of the fan-in loop (lines 101-116): an item from `itemCh`
(from the buffer, or directly from the blocked sender when the buffer is empty),
the end of the range when the channel is closed and drained, or the result of
the item being waited for, followed by `kw.Write`. -/
def fanInStep {K C : Type} [KeyString K] (env : Env K C) (s : State K C) :
    Option (State K C) :=
  match s.fanin with
  | .returned _ => none
  | .ranging =>
    match s.itemCh with
    | it :: rest => some (received { s with itemCh := rest } it)
    | [] =>
      match s.fanout with
      | .sending it => some (received { s with fanout := afterSend it } it)
      | .closed => some { s with fanin := .returned none }
      | _ => none
  | .waiting it =>
    match it.resCh with
    | some (.result (some err)) => some { s with fanin := .returned (some err) }
    | some (.result none) =>
      match env.kw.Write s.out it.key with
      | some err =>
        some { s with
          fanin := .returned (some (ErrorfKey "handler failed for key " it.key ": " err))
          trace := s.trace ++ [.Write it.key] }
      | none =>
        some { s with
          fanin := .ranging
          out := s.out ++ [it.key]
          trace := s.trace ++ [.Write it.key] }
    | _ => none

/-- Replace the `i`-th element of a list by the outcome of a step on it. -/
def stepAt {α β : Type} (f : α → Option (α × β)) : List α → Nat → Option (List α × β)
  | [], _ => none
  | a :: l, 0 => (f a).map (fun p => (p.1 :: l, p.2))
  | a :: l, i + 1 => (stepAt f l i).map (fun p => (a :: p.1, p.2))

/-- One scheduling decision applied to a state; `none` when the chosen goroutine
cannot move. -/
def step {K C : Type} [KeyString K] (env : Env K C) (a : Action) (s : State K C) :
    Option (State K C) :=
  match a with
  | .fanout =>
    match s.fanout with
    | .reading => some (fanOutStep env s)
    | _ => none
  | .send =>
    match s.fanout with
    | .sending it =>
      if s.itemCh.length < env.MoveConcurrency then
        some { s with fanout := afterSend it, itemCh := s.itemCh ++ [it] }
      else none
    | _ => none
  | .fanin => fanInStep env s
  | .workHeld =>
    match s.fanin with
    | .waiting it =>
      (work env it).map (fun p => { s with fanin := .waiting p.1, trace := s.trace ++ [p.2] })
    | _ => none
  | .workQueued i =>
    (stepAt (work env) s.itemCh i).map
      (fun p => { s with itemCh := p.1, trace := s.trace ++ [p.2] })
  | .workSending =>
    match s.fanout with
    | .sending it =>
      (work env it).map (fun p => { s with fanout := .sending p.1, trace := s.trace ++ [p.2] })
    | _ => none

/-- Run a schedule. -/
def run {K C : Type} [KeyString K] (env : Env K C) : List Action → State K C →
    Option (State K C)
  | [], s => some s
  | a :: sched, s =>
    match step env a s with
    | some s' => run env sched s'
    | none => none

/-- The state in which the fan-out goroutine is started (line 69). -/
def start {K C : Type} (tr : List (Event K C)) : State K C :=
  { fanout := .reading, itemCh := [], fanin := .ranging, reads := 0, out := [], trace := tr }

/-- The state in which `Move` returned from its setup. -/
def failed {K C : Type} (tr : List (Event K C)) (err : Error) : State K C :=
  { fanout := .idle, itemCh := [], fanin := .returned (some err), reads := 0, out := [],
    trace := tr }

/-- The environment of the goroutines for resolved stores and index. -/
def mkEnv {K C : Type} (kr : KeyReader K) (kw : KeyWriter K) (conf : Config K C)
    (r : Store K C × Store K C × Option (KeyIndex K)) : Env K C :=
  { kr := kr, kw := kw, src := r.1, dst := r.2.1, idx := r.2.2,
    MoveConcurrency := conf.MoveConcurrency }

/-- `Move(kr, kw, conf)` under the schedule `sched`: the state reached, or `none`
when the schedule asks a goroutine to move that cannot.  `Move` has returned
`err` in a state whose `fanin` is `returned err`. -/
def Move {K C : Type} [KeyString K] (kr : KeyReader K) (kw : KeyWriter K) (conf : Config K C)
    (sched : List Action) : Option (State K C) :=
  match setup conf with
  | (tr, .error err) =>
    match sched with
    | [] => some (failed tr err)
    | _ => none
  | (tr, .ok r) => run (mkEnv kr kw conf r) sched (start tr)

/-! ## Derived notions used in the statements -/

/-- The items a state holds: the one fan-in waits on, the buffer, the one fan-out
is sending. -/
def held {K C : Type} (s : State K C) : List (item K C) :=
  (match s.fanin with
    | .waiting it => [it]
    | _ => []) ++ s.itemCh ++
  (match s.fanout with
    | .sending it => [it]
    | _ => [])

/-- Number of workers that were started and whose result fan-in has not
received. -/
def inflight {K C : Type} (s : State K C) : Nat :=
  ((held s).filter (fun it => it.resCh.isSome)).length

/-- The outcome of the closure `work` for a key: `src.Get` followed by `dst.Put`. -/
def transfer {K C : Type} [KeyString K] (env : Env K C) (k : K) : Option Error :=
  match env.src.Get k with
  | .error err => some (ErrorfKey "failed to get chunk " k " from store: " err)
  | .ok chunk =>
    match env.dst.Put k chunk with
    | some err => some (ErrorfKey "failed to put chunk " k " to remote: " err)
    | none => none

/-- The keys that are not skipped, in input order. -/
def todo {K C : Type} (env : Env K C) (keys : List K) : List K :=
  keys.filter (fun k => !skip env k)

/-- The keys for which a worker was started, in order. -/
def spawned {K C : Type} : List (Event K C) → List K
  | [] => []
  | .go k :: tr => k :: spawned tr
  | _ :: tr => spawned tr

/-! ## Invariants of the reachable states -/

/-- The item fan-out sends when the reader fails with an error other than
`io.EOF` (lines 74-79); nothing for `io.EOF`. -/
def tailItems {K C : Type} (env : Env K C) : List (item K C) :=
  match env.kr.last.2 with
  | .EOF => []
  | err =>
    [{ key := env.kr.last.1, resCh := none,
       err := some (Errorf "failed to iterate into next key: " err) }]

/-- The items fan-out will still produce when it has made `r` calls of `Read`. -/
def future {K C : Type} (env : Env K C) (r : Nat) : List (item K C) :=
  (todo env (env.kr.keys.drop r)).map (fun k => { key := k, resCh := some .started, err := none })
    ++ tailItems env

/-- The items fan-out will still produce in the state `s`. -/
def upcoming {K C : Type} (env : Env K C) (s : State K C) : List (item K C) :=
  match s.fanout with
  | .reading => future env s.reads
  | .sending it =>
    match it.err with
    | some _ => []
    | none => future env s.reads
  | _ => []

/-- The fan-in loop run on its own over a list of items whose workers deliver the
outcome of their transfer: the value `Move` returns and the keys written, the
writer having written `out` before.  This is the sequential reading of lines
101-118 against which the executions are compared. -/
def drain {K C : Type} [KeyString K] (env : Env K C) : List (item K C) → List K → Option Error × List K
  | [], out => (none, out)
  | it :: rest, out =>
    match it.err with
    | some err => (some (Errorf "failed to iterate: " err), out)
    | none =>
      match transfer env it.key with
      | some err => (some err, out)
      | none =>
        match env.kw.Write out it.key with
        | some err => (some (ErrorfKey "handler failed for key " it.key ": " err), out)
        | none => drain env rest (out ++ [it.key])

/-- The key `k` was read, not skipped, fetched and put without error, and both
calls are in the trace. -/
def moved {K C : Type} (env : Env K C) (tr : List (Event K C)) (k : K) : Prop :=
  k ∈ env.kr.keys ∧ skip env k = false ∧
    ∃ c, env.src.Get k = .ok c ∧ env.dst.Put k c = none ∧ Event.Get k ∈ tr ∧ Event.Put k c ∈ tr

/-- What is known of an item that is held somewhere: a read-error item has no
worker; any other item carries a key that was read and not skipped, and the
state of its worker agrees with the stores. -/
def itemOk {K C : Type} [KeyString K] (env : Env K C) (tr : List (Event K C)) (it : item K C) : Prop :=
  match it.err with
  | some _ => it.resCh = none
  | none =>
    it.key ∈ env.kr.keys ∧ skip env it.key = false ∧
    match it.resCh with
    | none => False
    | some .started => True
    | some (.got c) => env.src.Get it.key = .ok c ∧ Event.Get it.key ∈ tr
    | some (.result r) => transfer env it.key = r ∧ (r = none → moved env tr it.key)

/-- What is known of a call in the trace: the index is touched only when an
index is in use, and workers only touch keys that were read and not skipped. -/
def eventOk {K C : Type} (env : Env K C) : Event K C → Prop
  | .Index => env.idx.isSome = true
  | .Has _ => env.idx.isSome = true
  | .go k => k ∈ env.kr.keys ∧ skip env k = false
  | .Get k => k ∈ env.kr.keys ∧ skip env k = false
  | .Put k c => k ∈ env.kr.keys ∧ skip env k = false ∧ env.src.Get k = .ok c
  | .Write k => k ∈ env.kr.keys ∧ skip env k = false
  | _ => True

/-- Fan-out runs, and it calls `Read` again only while the reader has not
failed. -/
def readsOk {K C : Type} (env : Env K C) (s : State K C) : Prop :=
  match s.fanout with
  | .idle => False
  | .reading => s.reads ≤ env.kr.keys.length
  | .sending it => s.reads ≤ env.kr.keys.length + 1 ∧ (it.err = none → s.reads ≤ env.kr.keys.length)
  | .closed => s.reads ≤ env.kr.keys.length + 1

/-- Once `Move` has returned, its value and output are those of `drain` on the
whole input; before, draining what is held and what is still to come gives
that same result. -/
def specOk {K C : Type} [KeyString K] (env : Env K C) (s : State K C) : Prop :=
  match s.fanin with
  | .returned r => (r, s.out) = drain env (future env 0) []
  | _ => drain env (held s ++ upcoming env s) s.out = drain env (future env 0) []

/-- The invariant of the states a schedule can reach. -/
structure Inv {K C : Type} [KeyString K] (env : Env K C) (s : State K C) : Prop where
  held_ok : ∀ it ∈ held s, itemOk env s.trace it
  trace_ok : ∀ e ∈ s.trace, eventOk env e
  out_ok : ∀ k ∈ s.out, moved env s.trace k
  spec_ok : specOk env s
  cap_ok : s.itemCh.length ≤ env.MoveConcurrency
  reads_ok : readsOk env s
  waiting_ok : ∀ it, s.fanin = .waiting it → it.err = none
  spawned_ok : spawned s.trace = todo env (env.kr.keys.take s.reads)

/-- Steps the worker of an item can still take, counting the hand-over of its
result. -/
def weight {K C : Type} (it : item K C) : Nat :=
  match it.resCh with
  | none => 0
  | some .started => 3
  | some (.got _) => 2
  | some (.result _) => 1

/-- A bound on the number of steps that are still possible in a state. -/
def potential {K C : Type} (env : Env K C) (s : State K C) : Nat :=
  7 * (env.kr.keys.length + 1 - s.reads)
    + (match s.fanout with
        | .sending _ => 3
        | _ => 0)
    + 2 * s.itemCh.length
    + ((held s).map weight).sum
    + (match s.fanin with
        | .ranging => 1
        | .waiting _ => 2
        | .returned _ => 0)

/-- Every key of the list transfers and is written without error, in order, by
a writer that has already written `out`. -/
def allOk {K C : Type} [KeyString K] (env : Env K C) : List K → List K → Prop
  | _, [] => True
  | out, k :: ks =>
    transfer env k = none ∧ env.kw.Write out k = none ∧ allOk env (out ++ [k]) ks

/-- Keys of the examples are numbers, rendered in decimal. -/
instance : KeyString Nat := ⟨fun k => toString k⟩

/-- A source store that holds the chunk `[k, k]` under every key `k` except 13 and
refuses every `Put`. -/
def exSrc : Store Nat (List Nat) :=
  { Get := fun k => if k = 13 then .error (.New "no such key") else .ok [k, k]
    Put := fun _ _ => some (.New "read only")
    RemoteStore := none }

/-- A destination store that accepts every chunk and is no `RemoteStore`. -/
def exDst : Store Nat (List Nat) :=
  { Get := fun _ => .error (.New "no such key")
    Put := fun _ _ => none
    RemoteStore := none }

/-- A remote destination whose index reports key 11 as present. -/
def exRemote : Store Nat (List Nat) :=
  { Get := fun _ => .error (.New "no such key")
    Put := fun _ _ => none
    RemoteStore := some { Index := fun _ => ({ Has := fun k => k == 11 }, none) } }

/-- Plain destination, an index configured that claims to hold every key. -/
def exConf : Config Nat (List Nat) :=
  { Stores := { MoveSrc := .ok exSrc, MoveDst := .ok exDst }
    Index := some { Has := fun _ => true }
    MoveConcurrency := 1 }

/-- Remote destination with an index to prime. -/
def exConfRemote : Config Nat (List Nat) :=
  { Stores := { MoveSrc := .ok exSrc, MoveDst := .ok exRemote }
    Index := some { Has := fun _ => false }
    MoveConcurrency := 1 }

/-- Three keys and a clean end. -/
def exReader : KeyReader Nat := { keys := [10, 11, 12], last := (0, .EOF) }

/-- The second key, 13, is missing from the source store. -/
def exReaderGetFails : KeyReader Nat := { keys := [10, 13, 12], last := (0, .EOF) }

/-- Two keys, then the reader fails. -/
def exReaderFails : KeyReader Nat := { keys := [10, 12], last := (0, .New "disk gone") }

/-- A writer that accepts every key. -/
def exWriter : KeyWriter Nat := { Write := fun _ _ => none }

/-- A schedule that moves one key after the other: read, hand over, get, put,
collect. -/
def exOne : List Action := [.fanout, .fanin, .workHeld, .workHeld, .fanin]

/-- Key 10 is moved, key 11 is skipped, key 12 is moved, then the reader ends. -/
def exSchedule : List Action := exOne ++ [.fanout] ++ exOne ++ [.fanout, .fanin]

/-- The state `exSchedule` leads to. -/
def exFinal : State Nat (List Nat) :=
  (Move exReader exWriter exConfRemote exSchedule).getD (start [])

/-- A writer that refuses key 12. -/
def exWriterFails : KeyWriter Nat :=
  { Write := fun _ k => if k = 12 then some (.New "pipe closed") else none }

/-- Source store cannot be resolved. -/
def exConfNoSrc : Config Nat (List Nat) :=
  { Stores := { MoveSrc := .error (.New "no source"), MoveDst := .ok exDst }
    Index := none
    MoveConcurrency := 1 }

/-- Modelled from the spec: the `Store` implementations are not among the sources;
a store is a mapping from key to chunk in which a `Put` that succeeds binds the
key to the chunk.  The mapping a destination holds after the calls of a trace,
starting from the mapping `m`. -/
def contents {K C : Type} [DecidableEq K] (dst : Store K C) (m : K → Option C) :
    List (Event K C) → K → Option C
  | [] => m
  | .Put k c :: tr =>
    contents dst (if (dst.Put k c).isNone then Function.update m k (some c) else m) tr
  | _ :: tr => contents dst m tr

/-- Remote destination, an index that is primed to hold every key. -/
def exConfAll : Config Nat (List Nat) :=
  { Stores :=
      { MoveSrc := .ok exSrc
        MoveDst := .ok
          { Get := fun _ => .error (.New "no such key")
            Put := fun _ _ => none
            RemoteStore := some { Index := fun _ => ({ Has := fun _ => true }, none) } } }
    Index := some { Has := fun _ => false }
    MoveConcurrency := 1 }

/-- All three keys are moved one after the other, then the reader ends. -/
def exScheduleAll : List Action := exOne ++ exOne ++ exOne ++ [.fanout, .fanin]

/-- The state `exScheduleAll` leads to under `exConf`. -/
def exFinalAll : State Nat (List Nat) :=
  (Move exReader exWriter exConf exScheduleAll).getD (start [])

/-- Fan-in holds the first item, the buffer is full and fan-out has started the
worker of a third item that it cannot send yet. -/
def exScheduleFull : List Action := [.fanout, .fanin, .fanout, .send, .fanout]

/-- A worker for key `k` is started and has not called `src.Get` yet. -/
def pendingGet {K C : Type} (s : State K C) (k : K) : Prop :=
  ∃ it ∈ held s, it.key = k ∧ it.resCh = some .started

/-- A worker for key `k` holds the chunk `c` and has not called `dst.Put` yet. -/
def pendingPut {K C : Type} (s : State K C) (k : K) (c : C) : Prop :=
  ∃ it ∈ held s, it.key = k ∧ it.resCh = some (.got c)

/-- Every key a worker was started for is fetched, or its worker is about to
fetch it; once it is fetched, the chunk is put, or its worker is about to put
it. -/
def worked {K C : Type} (env : Env K C) (s : State K C) : Prop :=
  ∀ k ∈ spawned s.trace,
    pendingGet s k ∨
      (Event.Get k ∈ s.trace ∧
        ∀ c, env.src.Get k = .ok c → Event.Put k c ∈ s.trace ∨ pendingPut s k c)

/-- The value of the variable `idx` after lines 55-65 for a destination `dst`: the
configured index as `remote.Index` left it when `dst` is a `RemoteStore` and an
index is configured, nil otherwise. -/
def usedIndex {K C : Type} (conf : Config K C) (dst : Store K C) : Option (KeyIndex K) :=
  match dst.RemoteStore, conf.Index with
  | some remote, some idx => some (remote.Index idx).1
  | _, _ => none

/-- The environment of the goroutines when `conf.Stores.MoveSrc()` gave `src` and
`conf.Stores.MoveDst()` gave `dst`. -/
def envOf {K C : Type} (kr : KeyReader K) (kw : KeyWriter K) (conf : Config K C)
    (src dst : Store K C) : Env K C :=
  { kr := kr, kw := kw, src := src, dst := dst, idx := usedIndex conf dst,
    MoveConcurrency := conf.MoveConcurrency }

/-- Every key of the list is fetched from `src`, put into `dst` with the chunk
fetched and written to `kw` without error, in order, `kw` having written `out`
before. -/
def allMoved {K C : Type} (src dst : Store K C) (kw : KeyWriter K) : List K → List K → Prop
  | _, [] => True
  | out, k :: ks =>
    (∃ c, src.Get k = .ok c ∧ dst.Put k c = none) ∧ kw.Write out k = none ∧
      allMoved src dst kw (out ++ [k]) ks

/-- A destination that refuses every `Put`. -/
def exDstFull : Store Nat (List Nat) :=
  { Get := fun _ => .error (.New "no such key")
    Put := fun _ _ => some (.New "disk full")
    RemoteStore := none }

/-- Plain destination that refuses every `Put`. -/
def exConfFull : Config Nat (List Nat) :=
  { Stores := { MoveSrc := .ok exSrc, MoveDst := .ok exDstFull }
    Index := none
    MoveConcurrency := 1 }

/-- The value `Move` has returned in a state, if it has returned. -/
def retval {K C : Type} (s : State K C) : Option (Option Error) :=
  match s.fanin with
  | .returned err => some err
  | _ => none

end bits

namespace libchunk

/-! ## Split and Join (spec sections 4.1 to 4.3) -/

/-- A byte sequence. -/
abbrev Bytes := List (Fin 256)

/-- Modelled from the spec: the error kinds of section 7 that `Split` and `Join`
can fail with (the functions and their error values are not among the sources). -/
inductive Failure where
  | StoreWriteFailed : Failure
  | StoreReadFailed : Failure
  | NoSuchKey : Failure
  | AuthenticationFailed : Failure
  | IteratorFailed : Failure
  | WriterFailed : Failure
deriving DecidableEq, Repr

/-- Modelled from the spec: the contract of section 4.1, `Seal(plaintext, secret)`
giving key and ciphertext and `Open(key, ciphertext, secret)` giving the
plaintext or failing authentication; the cipher itself is not among the sources. -/
structure Cipher (K : Type) where
  Seal : Bytes → Bytes → K × Bytes
  Open : K → Bytes → Bytes → Option Bytes

/-- Modelled from the spec: a store as a mapping from key to ciphertext (section 3)
whose reads and writes can fail (section 7); the store implementations are not
among the sources. -/
structure ChunkStore (K : Type) where
  chunks : K → Option Bytes
  readFails : K → Bool
  writeFails : K → Bool

/-- Modelled from the spec: `Get(key)` of section 6, with the error kinds
`StoreReadFailed` and `NoSuchKey` of section 4.3. -/
def ChunkStore.Get {K : Type} (st : ChunkStore K) (k : K) : Except Failure Bytes :=
  if st.readFails k then .error .StoreReadFailed
  else
    match st.chunks k with
    | none => .error .NoSuchKey
    | some c => .ok c

/-- Modelled from the spec: `Put(key, bytes)` of section 6, which binds the key. -/
def ChunkStore.Put {K : Type} [DecidableEq K] (st : ChunkStore K) (k : K) (c : Bytes) :
    Except Failure (ChunkStore K) :=
  if st.writeFails k then .error .StoreWriteFailed
  else .ok { st with chunks := fun x => if x = k then some c else st.chunks x }

/-- Modelled from the spec: the loop of `Split` (section 4.2) over the chunks of the
input: seal the chunk, put the ciphertext under its key, emit the key. -/
def splitChunks {K : Type} [DecidableEq K] (cipher : Cipher K) (secret : Bytes) :
    List Bytes → ChunkStore K → List K → Except Failure (ChunkStore K × List K)
  | [], st, keys => .ok (st, keys)
  | p :: ps, st, keys =>
    match st.Put (cipher.Seal p secret).1 (cipher.Seal p secret).2 with
    | .error e => .error e
    | .ok st2 => splitChunks cipher secret ps st2 (keys ++ [(cipher.Seal p secret).1])

/-- Modelled from the spec: `Split` (section 4.2), which is not among the sources.
The boundary policy is the parameter `chunker`; the result is the store after
the puts and the keys emitted to the sink. -/
def Split {K : Type} [DecidableEq K] (cipher : Cipher K) (chunker : Bytes → List Bytes)
    (secret : Bytes) (input : Bytes) (st : ChunkStore K) :
    Except Failure (ChunkStore K × List K) :=
  splitChunks cipher secret (chunker input) st []

/-- Modelled from the spec: the loop of `Join` (section 4.3) over the keys: get the
ciphertext, open it, write the plaintext to the output, whose writes fail where
`writeFails` says so. -/
def joinKeys {K : Type} (cipher : Cipher K) (secret : Bytes) (st : ChunkStore K)
    (writeFails : Bytes → Bytes → Bool) : List K → Bytes → Except Failure Bytes
  | [], out => .ok out
  | k :: ks, out =>
    match st.Get k with
    | .error e => .error e
    | .ok c =>
      match cipher.Open k c secret with
      | none => .error .AuthenticationFailed
      | some p =>
        if writeFails out p then .error .WriterFailed
        else joinKeys cipher secret st writeFails ks (out ++ p)

/-- Modelled from the spec: `Join` (section 4.3), which is not among the sources.
The iterator yields `keys` and then ends, with a failure when `iterFails`; the
result is what was written to the output. -/
def Join {K : Type} (cipher : Cipher K) (secret : Bytes) (keys : List K) (iterFails : Bool)
    (st : ChunkStore K) (writeFails : Bytes → Bytes → Bool) : Except Failure Bytes :=
  match joinKeys cipher secret st writeFails keys [] with
  | .error e => .error e
  | .ok out => if iterFails then .error .IteratorFailed else .ok out

/-- A cipher for the examples: the key is the plaintext, the ciphertext is the
plaintext followed by the secret, and opening checks both. -/
def exCipher : Cipher Bytes :=
  { Seal := fun p secret => (p, p ++ secret)
    Open := fun k c secret => if c = k ++ secret then some k else none }

/-- An empty store that never fails. -/
def exStore : ChunkStore Bytes :=
  { chunks := fun _ => none, readFails := fun _ => false, writeFails := fun _ => false }

/-- Chunks of one byte each. -/
def exChunker : Bytes → List Bytes := fun b => b.map (fun x => [x])

end libchunk

namespace bits

/-! ## Preservation of the invariants -/

/-- A step at a position of a list replaces one element by the outcome of the
step on it. -/
theorem stepAt_some {α β : Type} (f : α → Option (α × β)) :
    ∀ (l : List α) (i : Nat) (l2 : List α) (e : β), stepAt f l i = some (l2, e) →
      ∃ a x y b, l = a ++ x :: b ∧ l2 = a ++ y :: b ∧ f x = some (y, e) := by
  intro l
  induction l with
  | nil => intro i l2 e h; simp [stepAt] at h
  | cons x l ih =>
    intro i l2 e h
    cases i with
    | zero =>
      simp only [stepAt, Option.map_eq_some'] at h
      obtain ⟨p, hp, hq⟩ := h
      simp only [Prod.mk.injEq] at hq
      refine ⟨[], x, p.1, l, rfl, ?_, ?_⟩
      · simp [← hq.1]
      · rw [hp, ← hq.2]
    | succ i =>
      simp only [stepAt, Option.map_eq_some'] at h
      obtain ⟨p, hp, hq⟩ := h
      simp only [Prod.mk.injEq] at hq
      obtain ⟨a, x2, y, b, h1, h2, h3⟩ := ih i p.1 p.2 hp
      refine ⟨x :: a, x2, y, b, ?_, ?_, ?_⟩
      · simp [h1]
      · simp [← hq.1, h2]
      · rw [h3, ← hq.2]

theorem moved_mono {K C : Type} [KeyString K] (env : Env K C) (tr tr2 : List (Event K C)) (k : K)
    (h : moved env tr k) : moved env (tr ++ tr2) k := by
  obtain ⟨h1, h2, c, h3, h4, h5, h6⟩ := h
  exact ⟨h1, h2, c, h3, h4, List.mem_append_left _ h5, List.mem_append_left _ h6⟩

theorem itemOk_mono {K C : Type} [KeyString K] (env : Env K C) (tr tr2 : List (Event K C)) (it : item K C)
    (h : itemOk env tr it) : itemOk env (tr ++ tr2) it := by
  unfold itemOk at h ⊢
  cases he : it.err with
  | some e => simpa [he] using h
  | none =>
    simp only [he] at h ⊢
    refine ⟨h.1, h.2.1, ?_⟩
    have h3 := h.2.2
    cases hr : it.resCh with
    | none => simp [hr] at h3
    | some w =>
      cases w with
      | started => trivial
      | got c =>
        simp only [hr] at h3 ⊢
        exact ⟨h3.1, List.mem_append_left _ h3.2⟩
      | result r =>
        simp only [hr] at h3 ⊢
        exact ⟨h3.1, fun hn => moved_mono env tr tr2 _ (h3.2 hn)⟩

/-- A step of a worker keeps key and error of its item, brings the worker closer
to its end and keeps the item well-formed; the call it makes is a call for a
key that was read and not skipped. -/
theorem work_some {K C : Type} [KeyString K] (env : Env K C) (tr : List (Event K C)) (it it2 : item K C) (e : Event K C)
    (h : work env it = some (it2, e)) :
    it2.key = it.key ∧ it2.err = it.err ∧ weight it2 < weight it ∧
      (itemOk env tr it → itemOk env (tr ++ [e]) it2 ∧ eventOk env e) := by
  unfold work at h
  cases hr : it.resCh with
  | none => simp [hr] at h
  | some w =>
    cases w with
    | started =>
      simp only [hr] at h
      cases hg : env.src.Get it.key with
      | error err =>
        simp only [hg, Option.some.injEq, Prod.mk.injEq] at h
        obtain ⟨h1, h2⟩ := h
        subst h1 h2
        refine ⟨rfl, rfl, by simp [weight, hr], ?_⟩
        intro hok
        unfold itemOk at hok ⊢
        cases he : it.err with
        | some e => simp [he, hr] at hok
        | none =>
          simp only [he, hr] at hok ⊢
          refine ⟨⟨hok.1, hok.2.1, ?_, ?_⟩, hok.1, hok.2.1⟩
          · simp [transfer, hg]
          · intro hn; simp at hn
      | ok c =>
        simp only [hg, Option.some.injEq, Prod.mk.injEq] at h
        obtain ⟨h1, h2⟩ := h
        subst h1 h2
        refine ⟨rfl, rfl, by simp [weight, hr], ?_⟩
        intro hok
        unfold itemOk at hok ⊢
        cases he : it.err with
        | some e => simp [he, hr] at hok
        | none =>
          simp only [he, hr] at hok ⊢
          exact ⟨⟨hok.1, hok.2.1, hg, by simp⟩, hok.1, hok.2.1⟩
    | got c =>
      simp only [hr] at h
      cases hp : env.dst.Put it.key c with
      | some err =>
        simp only [hp, Option.some.injEq, Prod.mk.injEq] at h
        obtain ⟨h1, h2⟩ := h
        subst h1 h2
        refine ⟨rfl, rfl, by simp [weight, hr], ?_⟩
        intro hok
        unfold itemOk at hok ⊢
        cases he : it.err with
        | some e => simp [he, hr] at hok
        | none =>
          simp only [he, hr] at hok ⊢
          refine ⟨⟨hok.1, hok.2.1, ?_, ?_⟩, hok.1, hok.2.1, hok.2.2.1⟩
          · simp [transfer, hok.2.2.1, hp]
          · intro hn; simp at hn
      | none =>
        simp only [hp, Option.some.injEq, Prod.mk.injEq] at h
        obtain ⟨h1, h2⟩ := h
        subst h1 h2
        refine ⟨rfl, rfl, by simp [weight, hr], ?_⟩
        intro hok
        unfold itemOk at hok ⊢
        cases he : it.err with
        | some e => simp [he, hr] at hok
        | none =>
          simp only [he, hr] at hok ⊢
          refine ⟨⟨hok.1, hok.2.1, ?_, ?_⟩, hok.1, hok.2.1, hok.2.2.1⟩
          · simp [transfer, hok.2.2.1, hp]
          · intro _
            exact ⟨hok.1, hok.2.1, c, hok.2.2.1, hp, by simp [hok.2.2.2], by simp⟩
    | result r => simp [hr] at h

/-- The fan-in loop looks at key and error of an item only. -/
theorem drain_congr {K C : Type} [KeyString K] (env : Env K C) :
    ∀ (l l2 : List (item K C)) (out : List K),
      l.map (fun it => (it.key, it.err)) = l2.map (fun it => (it.key, it.err)) →
      drain env l out = drain env l2 out := by
  intro l
  induction l with
  | nil =>
    intro l2 out h
    cases l2 with
    | nil => rfl
    | cons y l2 => simp at h
  | cons x l ih =>
    intro l2 out h
    cases l2 with
    | nil => simp at h
    | cons y l2 =>
      simp only [List.map_cons, List.cons.injEq, Prod.mk.injEq] at h
      obtain ⟨⟨hk, he⟩, hl⟩ := h
      unfold drain
      rw [he, hk]
      cases y.err with
      | some err => rfl
      | none =>
        simp only
        cases transfer env y.key with
        | some err => rfl
        | none =>
          simp only
          cases env.kw.Write out y.key with
          | some err => rfl
          | none => exact ih l2 _ hl

/-- A call of `Read` yields the next key, or the final error of the reader. -/
theorem Read_cases {K : Type} (kr : KeyReader K) (n : Nat) :
    (∃ k, kr.Read n = (k, none) ∧ n < kr.keys.length ∧ kr.keys.drop n = k :: kr.keys.drop (n + 1) ∧
        kr.keys.take (n + 1) = kr.keys.take n ++ [k] ∧ k ∈ kr.keys) ∨
    (kr.Read n = (kr.last.1, some kr.last.2) ∧ kr.keys.length ≤ n ∧ kr.keys.drop n = [] ∧
        kr.keys.take (n + 1) = kr.keys.take n) := by
  by_cases h : n < kr.keys.length
  · left
    refine ⟨kr.keys[n], ?_, h, List.drop_eq_getElem_cons h, ?_, List.getElem_mem h⟩
    · simp [KeyReader.Read, List.getElem?_eq_getElem h]
    · rw [List.take_succ, List.getElem?_eq_getElem h]; rfl
  · right
    have h2 : kr.keys.length ≤ n := Nat.le_of_not_lt h
    refine ⟨?_, h2, List.drop_eq_nil_of_le h2, ?_⟩
    · simp [KeyReader.Read, List.getElem?_eq_none h2]
    · rw [List.take_succ, List.getElem?_eq_none h2]; simp

theorem spawned_append {K C : Type} (tr tr2 : List (Event K C)) :
    spawned (tr ++ tr2) = spawned tr ++ spawned tr2 := by
  induction tr with
  | nil => rfl
  | cons e tr ih => cases e <;> simp [spawned, ih]

theorem spawned_skipTrace {K C : Type} (env : Env K C) (k : K) : spawned (skipTrace env k) = [] := by
  unfold skipTrace
  cases env.idx <;> rfl

theorem eventOk_skipTrace {K C : Type} (env : Env K C) (k : K) : ∀ e ∈ skipTrace env k, eventOk env e := by
  intro e he
  unfold skipTrace at he
  cases hi : env.idx with
  | none => simp [hi] at he
  | some idx =>
    simp only [hi, List.mem_singleton] at he
    subst he
    simp [eventOk, hi]

/-- The invariant survives an iteration of the fan-out loop. -/
theorem inv_fanout {K C : Type} [KeyString K] (env : Env K C) (s : State K C) (h : Inv env s)
    (hf : s.fanout = .reading) : Inv env (fanOutStep env s) := by
  obtain ⟨fo, ch, fi, reads, out, tr⟩ := s
  simp only at hf
  subst hf
  obtain ⟨h1, h2, h3, h4, h5, h6, h7, h8⟩ := h
  simp only [readsOk] at h6
  simp only at h1 h2 h3 h5 h7 h8
  unfold fanOutStep
  rcases Read_cases env.kr reads with ⟨k, hr, hlt, hdrop, htake, hmem⟩ | ⟨hr, hge, hdrop, htake⟩
  · simp only [hr]
    cases hs : skip env k with
    | true =>
      simp only [if_true]
      refine ⟨?_, ?_, ?_, ?_, h5, ?_, h7, ?_⟩
      · intro it hit
        have : it ∈ held (⟨.reading, ch, fi, reads, out, tr⟩ : State K C) := by
          simpa [held] using hit
        exact itemOk_mono env _ _ _ (h1 it this)
      · intro e he
        simp only [List.mem_append, List.mem_cons] at he
        rcases he with he | he | he
        · exact h2 e he
        · subst he; trivial
        · exact eventOk_skipTrace env k e he
      · intro x hx
        exact moved_mono env _ _ _ (h3 x hx)
      · revert h4
        simp only [specOk, held, upcoming, future, hdrop, todo, List.filter_cons, hs]
        cases fi <;> simp
      · simp only [readsOk]; omega
      · simp only [spawned_append, spawned, spawned_skipTrace, htake, todo, List.filter_append,
          List.filter_cons, hs] at h8 ⊢
        simpa using h8
    | false =>
      simp only [Bool.false_eq_true, if_false]
      refine ⟨?_, ?_, ?_, ?_, h5, ?_, h7, ?_⟩
      · intro it hit
        simp only [held, List.append_assoc, List.mem_append, List.mem_singleton] at hit
        rcases hit with hit | hit | hit
        · exact itemOk_mono env _ _ _ (h1 it (by simp [held, hit]))
        · exact itemOk_mono env _ _ _ (h1 it (by simp [held, hit]))
        · subst hit
          simp [itemOk, hmem, hs]
      · intro e he
        simp only [List.mem_append, List.mem_cons, List.mem_singleton, List.not_mem_nil,
          or_false] at he
        rcases he with he | he | he | he
        · exact h2 e he
        · subst he; trivial
        · exact eventOk_skipTrace env k e he
        · subst he; exact ⟨hmem, hs⟩
      · intro x hx
        exact moved_mono env _ _ _ (h3 x hx)
      · revert h4
        simp only [specOk, held, upcoming, future, hdrop, todo, List.filter_cons, hs]
        cases fi <;> simp
      · simp only [readsOk]; omega
      · simp only [spawned_append, spawned, spawned_skipTrace, htake, todo, List.filter_append,
          List.filter_cons, hs] at h8 ⊢
        simpa using h8
  · simp only [hr]
    cases hl : env.kr.last.2 with
    | EOF =>
      simp only
      refine ⟨?_, ?_, ?_, ?_, h5, ?_, h7, ?_⟩
      · intro it hit
        have : it ∈ held (⟨.reading, ch, fi, reads, out, tr⟩ : State K C) := by
          simpa [held] using hit
        exact itemOk_mono env _ _ _ (h1 it this)
      · intro e he
        simp only [List.mem_append, List.mem_singleton] at he
        rcases he with he | he
        · exact h2 e he
        · subst he; trivial
      · intro x hx
        exact moved_mono env _ _ _ (h3 x hx)
      · revert h4
        simp only [specOk, held, upcoming, future, hdrop, todo, tailItems, hl]
        cases fi <;> simp
      · simp only [readsOk]; omega
      · simp only [spawned_append, spawned, htake] at h8 ⊢
        simpa using h8
    | New text =>
      simp only
      refine ⟨?_, ?_, ?_, ?_, h5, ?_, h7, ?_⟩
      · intro it hit
        simp only [held, List.append_assoc, List.mem_append, List.mem_singleton] at hit
        rcases hit with hit | hit | hit
        · exact itemOk_mono env _ _ _ (h1 it (by simp [held, hit]))
        · exact itemOk_mono env _ _ _ (h1 it (by simp [held, hit]))
        · subst hit
          simp [itemOk]
      · intro e he
        simp only [List.mem_append, List.mem_singleton] at he
        rcases he with he | he
        · exact h2 e he
        · subst he; trivial
      · intro x hx
        exact moved_mono env _ _ _ (h3 x hx)
      · revert h4
        simp only [specOk, held, upcoming, future, hdrop, todo, tailItems, hl]
        cases fi <;> simp
      · simp only [readsOk]; simp; omega
      · simp only [spawned_append, spawned, htake] at h8 ⊢
        simpa using h8

theorem upcoming_afterSend {K C : Type} (env : Env K C) (it : item K C) (ch : List (item K C))
    (fi fi2 : FanIn K C) (reads : Nat) (out : List K) (tr : List (Event K C)) :
    upcoming env ⟨afterSend it, ch, fi, reads, out, tr⟩ =
      upcoming env ⟨.sending it, [], fi2, reads, out, tr⟩ := by
  unfold upcoming afterSend
  cases he : it.err <;> simp [he]

theorem readsOk_afterSend {K C : Type} (env : Env K C) (it : item K C) (ch ch2 : List (item K C))
    (fi fi2 : FanIn K C) (reads : Nat) (out : List K) (tr : List (Event K C))
    (h : readsOk env ⟨.sending it, ch, fi, reads, out, tr⟩) :
    readsOk env ⟨afterSend it, ch2, fi2, reads, out, tr⟩ := by
  unfold readsOk afterSend at *
  simp only at h ⊢
  cases he : it.err with
  | some e => simpa using h.1
  | none => simpa using h.2 he

/-- The invariant survives a send into the buffer. -/
theorem inv_send {K C : Type} [KeyString K] (env : Env K C) (s s2 : State K C) (h : Inv env s)
    (hs : step env .send s = some s2) : Inv env s2 := by
  obtain ⟨fo, ch, fi, reads, out, tr⟩ := s
  obtain ⟨h1, h2, h3, h4, h5, h6, h7, h8⟩ := h
  simp only [step] at hs
  cases fo with
  | sending it =>
    simp only at hs
    split at hs
    · rename_i hlt
      simp only [Option.some.injEq] at hs
      subst hs
      refine ⟨?_, h2, h3, ?_, ?_, readsOk_afterSend env it _ _ _ _ _ _ _ h6, h7, h8⟩
      · intro x hx
        apply h1
        unfold afterSend at hx
        cases he : it.err <;> simp only [he] at hx <;> simpa [held] using hx
      · revert h4
        simp only [specOk, upcoming_afterSend env it _ fi fi]
        have : held (⟨afterSend it, ch ++ [it], fi, reads, out, tr⟩ : State K C) =
            held (⟨.sending it, ch, fi, reads, out, tr⟩ : State K C) := by
          unfold afterSend
          cases he : it.err <;> simp [held]
        rw [this]
        have h9 : upcoming env (⟨.sending it, [], fi, reads, out, tr⟩ : State K C) =
            upcoming env (⟨.sending it, ch, fi, reads, out, tr⟩ : State K C) := rfl
        rw [h9]
        cases fi <;> exact id
      · simp only [List.length_append, List.length_singleton]
        omega
    · simp at hs
  | _ => simp at hs

/-- The invariant survives the receipt of an item by fan-in. -/
theorem inv_received {K C : Type} [KeyString K] (env : Env K C) (s s0 : State K C)
    (it : item K C) (h : Inv env s) (hfi : s.fanin = .ranging)
    (hheld : held s = it :: held s0) (hup : upcoming env s0 = upcoming env s)
    (hfi0 : s0.fanin = .ranging) (hout : s0.out = s.out) (htr : s0.trace = s.trace)
    (hcap : s0.itemCh.length ≤ env.MoveConcurrency) (hreads : readsOk env s0)
    (hrd : s0.reads = s.reads) :
    Inv env (received s0 it) := by
  obtain ⟨h1, h2, h3, h4, h5, h6, h7, h8⟩ := h
  obtain ⟨fo0, ch0, fi0, reads0, out0, tr0⟩ := s0
  simp only at hfi0 hout htr hcap hrd
  subst hfi0 hout htr hrd
  unfold received
  simp only [specOk, hfi, hheld] at h4
  cases he : it.err with
  | some err =>
    simp only
    refine ⟨?_, h2, h3, ?_, hcap, hreads, ?_, ?_⟩
    · intro x hx
      apply h1
      rw [hheld]
      exact List.mem_cons_of_mem _ (by simpa [held] using hx)
    · simp only [specOk]
      rw [← h4]
      simp [drain, he]
    · intro x hx; simp at hx
    · exact h8
  | none =>
    simp only
    refine ⟨?_, h2, h3, ?_, hcap, hreads, ?_, ?_⟩
    · intro x hx
      apply h1
      rw [hheld]
      simpa [held] using hx
    · simp only [specOk]
      rw [← h4]
      have : held (⟨fo0, ch0, .waiting it, s.reads, s.out, s.trace⟩ : State K C) =
          it :: held (⟨fo0, ch0, .ranging, s.reads, s.out, s.trace⟩ : State K C) := by
        simp [held]
      rw [this]
      have : upcoming env (⟨fo0, ch0, .waiting it, s.reads, s.out, s.trace⟩ : State K C) =
          upcoming env s := by rw [← hup]; rfl
      rw [this]
    · intro x hx
      simp only [FanIn.waiting.injEq] at hx
      subst hx
      exact he
    · exact h8

/-- The invariant survives a receive of the fan-in loop. -/
theorem inv_fanin {K C : Type} [KeyString K] (env : Env K C) (s s2 : State K C) (h : Inv env s)
    (hs : step env .fanin s = some s2) : Inv env s2 := by
  simp only [step] at hs
  unfold fanInStep at hs
  cases hfi : s.fanin with
  | returned r => simp [hfi] at hs
  | ranging =>
    simp only [hfi] at hs
    cases hch : s.itemCh with
    | cons it rest =>
      simp only [hch, Option.some.injEq] at hs
      subst hs
      refine inv_received env s _ it h hfi ?_ ?_ rfl rfl rfl ?_ ?_ rfl
      · simp [held, hfi, hch]
      · rfl
      · have := h.cap_ok
        simp only [hch, List.length_cons] at this ⊢
        omega
      · exact h.reads_ok
    | nil =>
      simp only [hch] at hs
      cases hfo : s.fanout with
      | sending it =>
        simp only [hfo, Option.some.injEq] at hs
        subst hs
        have hro := h.reads_ok
        obtain ⟨fo, ch, fi, reads, out, tr⟩ := s
        simp only at hfi hch hfo
        subst hfi hch hfo
        refine inv_received env _ _ it h rfl ?_ ?_ rfl rfl rfl ?_ ?_ rfl
        · unfold afterSend
          cases he : it.err <;> simp [held]
        · exact upcoming_afterSend env it _ _ _ _ _ _
        · simp
        · exact readsOk_afterSend env it _ _ _ _ _ _ _ hro
      | closed =>
        simp only [hfo, Option.some.injEq] at hs
        subst hs
        obtain ⟨h1, h2, h3, h4, h5, h6, h7, h8⟩ := h
        refine ⟨?_, h2, h3, ?_, by simp, by simpa [readsOk, hfo] using h6, ?_, h8⟩
        · intro x hx
          simp [held] at hx
        · simp only [specOk, hfi, held, hch, hfo, upcoming] at h4 ⊢
          rw [← h4]
          simp [drain]
        · intro x hx; simp at hx
      | idle => simp [hfo] at hs
      | reading => simp [hfo] at hs
  | waiting it =>
    simp only [hfi] at hs
    obtain ⟨h1, h2, h3, h4, h5, h6, h7, h8⟩ := h
    have he := h7 it hfi
    have hheld : held s = it :: held { s with fanin := .ranging } := by
      simp [held, hfi]
    have hok := h1 it (by rw [hheld]; exact List.mem_cons_self _ _)
    simp only [itemOk, he] at hok
    obtain ⟨hk, hsk, hok⟩ := hok
    simp only [specOk, hfi, hheld] at h4
    cases hr : it.resCh with
    | none => simp [hr] at hs
    | some w =>
      cases w with
      | started => simp [hr] at hs
      | got c => simp [hr] at hs
      | result r =>
        simp only [hr] at hok
        obtain ⟨htr, hmv⟩ := hok
        cases r with
        | some err =>
          simp only [hr, Option.some.injEq] at hs
          subst hs
          refine ⟨?_, h2, h3, ?_, h5, h6, ?_, h8⟩
          · intro x hx
            apply h1
            rw [hheld]
            exact List.mem_cons_of_mem _ (by simpa [held] using hx)
          · simp only [specOk]
            rw [← h4]
            simp [drain, he, htr]
          · intro x hx; simp at hx
        | none =>
          simp only [hr] at hs
          have hmoved := hmv rfl
          cases hw : env.kw.Write s.out it.key with
          | some err =>
            simp only [hw, Option.some.injEq] at hs
            subst hs
            refine ⟨?_, ?_, ?_, ?_, h5, h6, ?_, ?_⟩
            · intro x hx
              apply itemOk_mono
              apply h1
              rw [hheld]
              exact List.mem_cons_of_mem _ (by simpa [held] using hx)
            · intro e hx
              simp only [List.mem_append, List.mem_singleton] at hx
              rcases hx with hx | hx
              · exact h2 e hx
              · subst hx; exact ⟨hk, hsk⟩
            · intro x hx
              exact moved_mono env _ _ _ (h3 x hx)
            · simp only [specOk]
              rw [← h4]
              simp [drain, he, htr, hw]
            · intro x hx; simp at hx
            · simpa [spawned_append, spawned] using h8
          | none =>
            simp only [hw, Option.some.injEq] at hs
            subst hs
            refine ⟨?_, ?_, ?_, ?_, h5, h6, ?_, ?_⟩
            · intro x hx
              apply itemOk_mono
              apply h1
              rw [hheld]
              exact List.mem_cons_of_mem _ (by simpa [held] using hx)
            · intro e hx
              simp only [List.mem_append, List.mem_singleton] at hx
              rcases hx with hx | hx
              · exact h2 e hx
              · subst hx; exact ⟨hk, hsk⟩
            · intro x hx
              simp only [List.mem_append, List.mem_singleton] at hx
              rcases hx with hx | hx
              · exact moved_mono env _ _ _ (h3 x hx)
              · subst hx; exact moved_mono env _ _ _ hmoved
            · simp only [specOk]
              rw [← h4]
              simp only [List.cons_append, drain, he, htr, hw]
              rfl
            · intro x hx; simp at hx
            · simpa [spawned_append, spawned] using h8

theorem itemOk_work {K C : Type} [KeyString K] (env : Env K C) (tr : List (Event K C))
    (x y : item K C) (e : Event K C) (A B : List (item K C)) (hw : work env x = some (y, e))
    (h : ∀ it ∈ A ++ x :: B, itemOk env tr it) :
    ∀ it ∈ A ++ y :: B, itemOk env (tr ++ [e]) it := by
  intro it hit
  simp only [List.mem_append, List.mem_cons] at hit
  rcases hit with hit | hit | hit
  · exact itemOk_mono env _ _ _ (h it (by simp [hit]))
  · subst hit
    exact ((work_some env tr x it e hw).2.2.2 (h x (by simp))).1
  · exact itemOk_mono env _ _ _ (h it (by simp [hit]))

theorem drain_work {K C : Type} [KeyString K] (env : Env K C) (x y : item K C) (e : Event K C)
    (A B : List (item K C)) (out : List K) (hw : work env x = some (y, e)) :
    drain env (A ++ y :: B) out = drain env (A ++ x :: B) out := by
  apply drain_congr
  have h := work_some env [] x y e hw
  simp [h.1, h.2.1]

theorem trace_work {K C : Type} [KeyString K] (env : Env K C) (tr : List (Event K C))
    (x y : item K C) (e : Event K C) (hw : work env x = some (y, e)) (hx : itemOk env tr x)
    (h : ∀ ev ∈ tr, eventOk env ev) : ∀ ev ∈ tr ++ [e], eventOk env ev := by
  intro ev hev
  simp only [List.mem_append, List.mem_singleton] at hev
  rcases hev with hev | hev
  · exact h ev hev
  · subst hev
    exact ((work_some env tr x y ev hw).2.2.2 hx).2

theorem spawned_work {K C : Type} [KeyString K] (env : Env K C) (tr : List (Event K C))
    (x y : item K C) (e : Event K C) (hw : work env x = some (y, e)) :
    spawned (tr ++ [e]) = spawned tr := by
  have : spawned [e] = [] := by
    unfold work at hw
    split at hw
    · split at hw <;> simp only [Option.some.injEq, Prod.mk.injEq] at hw <;>
        (rw [← hw.2]; rfl)
    · split at hw <;> simp only [Option.some.injEq, Prod.mk.injEq] at hw <;>
        (rw [← hw.2]; rfl)
    · simp at hw
  rw [spawned_append, this, List.append_nil]

theorem inv_workHeld {K C : Type} [KeyString K] (env : Env K C) (s s2 : State K C)
    (h : Inv env s) (hs : step env .workHeld s = some s2) : Inv env s2 := by
  obtain ⟨fo, ch, fi, reads, out, tr⟩ := s
  obtain ⟨h1, h2, h3, h4, h5, h6, h7, h8⟩ := h
  simp only [step] at hs
  cases fi with
  | waiting x =>
    simp only [Option.map_eq_some'] at hs
    obtain ⟨⟨y, e⟩, hw, hs⟩ := hs
    subst hs
    have hws := work_some env tr x y e hw
    have hheld : held (⟨fo, ch, .waiting x, reads, out, tr⟩ : State K C) =
        [] ++ x :: (ch ++ held (⟨fo, [], .ranging, reads, out, tr⟩ : State K C)) := by
      simp [held]
    have hheld2 : held (⟨fo, ch, .waiting y, reads, out, tr ++ [e]⟩ : State K C) =
        [] ++ y :: (ch ++ held (⟨fo, [], .ranging, reads, out, tr⟩ : State K C)) := by
      simp [held]
    refine ⟨?_, ?_, ?_, ?_, h5, h6, ?_, ?_⟩
    · rw [hheld2]
      rw [hheld] at h1
      exact itemOk_work env tr x y e _ _ hw h1
    · exact trace_work env tr x y e hw (h1 x (by simp [held])) h2
    · intro k hk
      exact moved_mono env _ _ _ (h3 k hk)
    · simp only [specOk] at h4 ⊢
      rw [← h4, hheld, hheld2]
      have : upcoming env (⟨fo, ch, .waiting y, reads, out, tr ++ [e]⟩ : State K C) =
          upcoming env (⟨fo, ch, .waiting x, reads, out, tr⟩ : State K C) := rfl
      rw [this]
      simp only [List.append_assoc, List.cons_append]
      exact drain_work env x y e _ _ _ hw
    · intro z hz
      simp only [FanIn.waiting.injEq] at hz
      subst hz
      rw [hws.2.1]
      exact h7 x rfl
    · rw [spawned_work env tr x y e hw]
      exact h8
  | _ => simp at hs

theorem inv_workSending {K C : Type} [KeyString K] (env : Env K C) (s s2 : State K C)
    (h : Inv env s) (hs : step env .workSending s = some s2) : Inv env s2 := by
  obtain ⟨fo, ch, fi, reads, out, tr⟩ := s
  obtain ⟨h1, h2, h3, h4, h5, h6, h7, h8⟩ := h
  simp only [step] at hs
  cases fo with
  | sending x =>
    simp only [Option.map_eq_some'] at hs
    obtain ⟨⟨y, e⟩, hw, hs⟩ := hs
    subst hs
    have hws := work_some env tr x y e hw
    have hheld : held (⟨.sending x, ch, fi, reads, out, tr⟩ : State K C) =
        (held (⟨.idle, ch, fi, reads, out, tr⟩ : State K C)) ++ x :: [] := by
      simp [held]
    have hheld2 : held (⟨.sending y, ch, fi, reads, out, tr ++ [e]⟩ : State K C) =
        (held (⟨.idle, ch, fi, reads, out, tr⟩ : State K C)) ++ y :: [] := by
      simp [held]
    have hup : upcoming env (⟨.sending y, ch, fi, reads, out, tr ++ [e]⟩ : State K C) =
        upcoming env (⟨.sending x, ch, fi, reads, out, tr⟩ : State K C) := by
      simp [upcoming, hws.2.1]
    refine ⟨?_, ?_, ?_, ?_, h5, ?_, h7, ?_⟩
    · rw [hheld2]
      rw [hheld] at h1
      exact itemOk_work env tr x y e _ _ hw h1
    · exact trace_work env tr x y e hw (h1 x (by simp [held])) h2
    · intro k hk
      exact moved_mono env _ _ _ (h3 k hk)
    · simp only [specOk] at h4 ⊢
      rw [hup, hheld2]
      rw [hheld] at h4
      have hd : ∀ o, drain env ((held (⟨.idle, ch, fi, reads, out, tr⟩ : State K C) ++ [y]) ++
          upcoming env (⟨.sending x, ch, fi, reads, out, tr⟩ : State K C)) o =
          drain env ((held (⟨.idle, ch, fi, reads, out, tr⟩ : State K C) ++ [x]) ++
          upcoming env (⟨.sending x, ch, fi, reads, out, tr⟩ : State K C)) o := by
        intro o
        simp only [List.append_assoc, List.singleton_append]
        exact drain_work env x y e _ _ _ hw
      cases fi with
      | returned r => exact h4
      | ranging => simp only at h4 ⊢; rw [hd]; exact h4
      | waiting z => simp only at h4 ⊢; rw [hd]; exact h4
    · simp only [readsOk, hws.2.1] at h6 ⊢
      exact h6
    · rw [spawned_work env tr x y e hw]
      exact h8
  | _ => simp at hs

theorem inv_workQueued {K C : Type} [KeyString K] (env : Env K C) (s s2 : State K C) (i : Nat)
    (h : Inv env s) (hs : step env (.workQueued i) s = some s2) : Inv env s2 := by
  obtain ⟨fo, ch, fi, reads, out, tr⟩ := s
  obtain ⟨h1, h2, h3, h4, h5, h6, h7, h8⟩ := h
  simp only [step, Option.map_eq_some'] at hs
  obtain ⟨⟨ch2, e⟩, hst, hs⟩ := hs
  subst hs
  obtain ⟨a, x, y, b, hch, hch2, hw⟩ := stepAt_some (work env) ch i ch2 e hst
  subst hch hch2
  have hws := work_some env tr x y e hw
  have hheld : held (⟨fo, a ++ x :: b, fi, reads, out, tr⟩ : State K C) =
      (held (⟨.idle, a, fi, reads, out, tr⟩ : State K C)) ++ x ::
        (b ++ held (⟨fo, [], .ranging, reads, out, tr⟩ : State K C)) := by
    simp [held]
  have hheld2 : held (⟨fo, a ++ y :: b, fi, reads, out, tr ++ [e]⟩ : State K C) =
      (held (⟨.idle, a, fi, reads, out, tr⟩ : State K C)) ++ y ::
        (b ++ held (⟨fo, [], .ranging, reads, out, tr⟩ : State K C)) := by
    simp [held]
  have hup : upcoming env (⟨fo, a ++ y :: b, fi, reads, out, tr ++ [e]⟩ : State K C) =
      upcoming env (⟨fo, a ++ x :: b, fi, reads, out, tr⟩ : State K C) := rfl
  refine ⟨?_, ?_, ?_, ?_, ?_, h6, h7, ?_⟩
  · rw [hheld2]
    rw [hheld] at h1
    exact itemOk_work env tr x y e _ _ hw h1
  · exact trace_work env tr x y e hw (h1 x (by simp [held])) h2
  · intro k hk
    exact moved_mono env _ _ _ (h3 k hk)
  · simp only [specOk] at h4 ⊢
    rw [hup, hheld2]
    rw [hheld] at h4
    have hd : ∀ o U, drain env ((held (⟨.idle, a, fi, reads, out, tr⟩ : State K C) ++ y ::
          (b ++ held (⟨fo, [], .ranging, reads, out, tr⟩ : State K C))) ++ U) o =
        drain env ((held (⟨.idle, a, fi, reads, out, tr⟩ : State K C) ++ x ::
          (b ++ held (⟨fo, [], .ranging, reads, out, tr⟩ : State K C))) ++ U) o := by
      intro o U
      simp only [List.append_assoc, List.cons_append]
      exact drain_work env x y e _ _ _ hw
    cases fi with
    | returned r => exact h4
    | ranging => simp only at h4 ⊢; rw [hd]; exact h4
    | waiting z => simp only at h4 ⊢; rw [hd]; exact h4
  · simpa using h5
  · rw [spawned_work env tr x y e hw]
    exact h8

/-- The invariant survives every step. -/
theorem step_inv {K C : Type} [KeyString K] (env : Env K C) (a : Action) (s s2 : State K C)
    (h : Inv env s) (hs : step env a s = some s2) : Inv env s2 := by
  cases a with
  | fanout =>
    simp only [step] at hs
    cases hf : s.fanout with
    | reading =>
      simp only [hf, Option.some.injEq] at hs
      subst hs
      exact inv_fanout env s h hf
    | _ => simp [hf] at hs
  | send => exact inv_send env s s2 h hs
  | fanin => exact inv_fanin env s s2 h hs
  | workHeld => exact inv_workHeld env s s2 h hs
  | workQueued i => exact inv_workQueued env s s2 i h hs
  | workSending => exact inv_workSending env s s2 h hs

/-- The invariant survives every schedule. -/
theorem run_inv {K C : Type} [KeyString K] (env : Env K C) :
    ∀ (sched : List Action) (s s2 : State K C), Inv env s → run env sched s = some s2 →
      Inv env s2 := by
  intro sched
  induction sched with
  | nil =>
    intro s s2 h hr
    simp only [run, Option.some.injEq] at hr
    subst hr
    exact h
  | cons a sched ih =>
    intro s s2 h hr
    simp only [run] at hr
    cases hs : step env a s with
    | none => simp [hs] at hr
    | some s1 =>
      simp only [hs] at hr
      exact ih s1 s2 (step_inv env a s s1 h hs) hr

/-- The invariant holds when the fan-out goroutine is started. -/
theorem start_inv {K C : Type} [KeyString K] (env : Env K C) (tr : List (Event K C))
    (htr : ∀ e ∈ tr, eventOk env e) (hsp : spawned tr = []) : Inv env (start tr) := by
  refine ⟨?_, htr, ?_, ?_, ?_, ?_, ?_, ?_⟩
  · intro it hit; simp [held, start] at hit
  · intro k hk; simp [start] at hk
  · simp [specOk, start, held, upcoming]
  · simp [start]
  · simp [readsOk, start]
  · intro it hit; simp [start] at hit
  · simp [start, hsp, todo]

/-! ## Termination and absence of deadlock -/

/-- Every step lowers the potential: there is no infinite execution. -/
theorem step_potential {K C : Type} [KeyString K] (env : Env K C) (a : Action) (s s2 : State K C)
    (h : Inv env s) (hs : step env a s = some s2) : potential env s2 < potential env s := by
  obtain ⟨fo, ch, fi, reads, out, tr⟩ := s
  have h6 := h.reads_ok
  have h7 := h.waiting_ok
  have h1 := h.held_ok
  cases a with
  | fanout =>
    simp only [step] at hs
    cases fo with
    | reading =>
      simp only [Option.some.injEq] at hs
      subst hs
      simp only [readsOk] at h6
      unfold fanOutStep
      simp only
      rcases Read_cases env.kr reads with ⟨k, hr, hlt, -, -, -⟩ | ⟨hr, hge, -, -⟩
      · simp only [hr]
        cases hsk : skip env k with
        | true =>
          simp only [if_true, potential, held]
          omega
        | false =>
          simp only [Bool.false_eq_true, if_false, potential, held, List.map_append,
            List.sum_append, List.map_cons, List.map_nil, List.sum_cons, List.sum_nil, weight]
          omega
      · simp only [hr]
        cases hl : env.kr.last.2 with
        | EOF =>
          simp only [potential, held]
          omega
        | New text =>
          simp only [potential, held, List.map_append,
            List.sum_append, List.map_cons, List.map_nil, List.sum_cons, List.sum_nil, weight]
          omega
    | _ => simp at hs
  | send =>
    simp only [step] at hs
    cases fo with
    | sending it =>
      simp only at hs
      split at hs
      · simp only [Option.some.injEq] at hs
        subst hs
        unfold afterSend
        cases he : it.err <;>
          simp only [potential, held, List.map_append, List.length_append, List.length_singleton,
            List.sum_append, List.map_cons, List.map_nil, List.sum_cons, List.sum_nil] <;>
          omega
      · simp at hs
    | _ => simp at hs
  | fanin =>
    simp only [step] at hs
    unfold fanInStep at hs
    cases fi with
    | returned r => simp at hs
    | ranging =>
      simp only at hs
      cases ch with
      | cons it rest =>
        simp only [Option.some.injEq] at hs
        subst hs
        unfold received
        cases he : it.err <;>
          simp only [potential, held, List.map_append, List.length_cons,
            List.sum_append, List.map_cons, List.map_nil, List.sum_cons, List.sum_nil,
            List.nil_append, List.cons_append, List.singleton_append] <;>
          omega
      | nil =>
        simp only at hs
        cases fo with
        | sending it =>
          simp only [Option.some.injEq] at hs
          subst hs
          unfold received afterSend
          cases he : it.err <;>
            simp only [potential, held, List.map_append, List.length_cons,
              List.sum_append, List.map_cons, List.map_nil, List.sum_cons, List.sum_nil,
              List.nil_append, List.cons_append, List.singleton_append, List.append_nil,
              List.length_nil] <;>
            omega
        | closed =>
          simp only [Option.some.injEq] at hs
          subst hs
          simp only [potential, held]
          omega
        | idle => simp at hs
        | reading => simp at hs
    | waiting it =>
      simp only at hs
      cases hr : it.resCh with
      | none => simp [hr] at hs
      | some w =>
        cases w with
        | started => simp [hr] at hs
        | got c => simp [hr] at hs
        | result r =>
          have hwt : weight it = 1 := by simp [weight, hr]
          cases r with
          | some err =>
            simp only [hr, Option.some.injEq] at hs
            subst hs
            simp only [potential, held, List.map_append,
              List.sum_append, List.map_cons, List.map_nil, List.sum_cons, List.sum_nil,
              List.nil_append, List.cons_append, List.singleton_append, hwt]
            omega
          | none =>
            simp only [hr] at hs
            cases hw : env.kw.Write out it.key <;>
              simp only [hw, Option.some.injEq] at hs <;>
              subst hs <;>
              simp only [potential, held, List.map_append,
                List.sum_append, List.map_cons, List.map_nil, List.sum_cons, List.sum_nil,
                List.nil_append, List.cons_append, List.singleton_append, hwt] <;>
              omega
  | workHeld =>
    simp only [step] at hs
    cases fi with
    | waiting x =>
      simp only [Option.map_eq_some'] at hs
      obtain ⟨⟨y, e⟩, hw, hs⟩ := hs
      subst hs
      have hws := (work_some env tr x y e hw).2.2.1
      simp only [potential, held, List.map_append,
        List.sum_append, List.map_cons, List.map_nil, List.sum_cons, List.sum_nil,
        List.nil_append, List.cons_append, List.singleton_append]
      omega
    | _ => simp at hs
  | workSending =>
    simp only [step] at hs
    cases fo with
    | sending x =>
      simp only [Option.map_eq_some'] at hs
      obtain ⟨⟨y, e⟩, hw, hs⟩ := hs
      subst hs
      have hws := (work_some env tr x y e hw).2.2.1
      simp only [potential, held, List.map_append,
        List.sum_append, List.map_cons, List.map_nil, List.sum_cons, List.sum_nil,
        List.nil_append, List.cons_append, List.singleton_append]
      omega
    | _ => simp at hs
  | workQueued i =>
    simp only [step, Option.map_eq_some'] at hs
    obtain ⟨⟨ch2, e⟩, hst, hs⟩ := hs
    subst hs
    obtain ⟨a, x, y, b, hch, hch2, hw⟩ := stepAt_some (work env) ch i ch2 e hst
    subst hch hch2
    have hws := (work_some env tr x y e hw).2.2.1
    simp only [potential, held, List.map_append, List.length_append, List.length_cons,
      List.sum_append, List.map_cons, List.map_nil, List.sum_cons, List.sum_nil,
      List.nil_append, List.cons_append, List.singleton_append]
    omega

theorem work_enabled {K C : Type} [KeyString K] (env : Env K C) (it : item K C)
    (h : it.resCh = some .started ∨ ∃ c, it.resCh = some (.got c)) :
    ∃ p, work env it = some p := by
  unfold work
  rcases h with h | ⟨c, h⟩
  · simp only [h]
    cases env.src.Get it.key <;> exact ⟨_, rfl⟩
  · simp only [h]
    cases env.dst.Put it.key c <;> exact ⟨_, rfl⟩

/-- As long as `Move` has not returned, some goroutine can move and fan-in is not
stuck for good: the worker it waits for can step, or fan-in itself can. -/
theorem progress {K C : Type} [KeyString K] (env : Env K C) (s : State K C) (h : Inv env s)
    (hfi : ∀ r, s.fanin ≠ .returned r) : ∃ a s2, step env a s = some s2 := by
  obtain ⟨fo, ch, fi, reads, out, tr⟩ := s
  obtain ⟨h1, h2, h3, h4, h5, h6, h7, h8⟩ := h
  cases fi with
  | returned r => exact absurd rfl (hfi r)
  | ranging =>
    cases ch with
    | cons it rest => exact ⟨.fanin, by simp [step, fanInStep]⟩
    | nil =>
      cases fo with
      | idle => simp [readsOk] at h6
      | reading => exact ⟨.fanout, by simp [step]⟩
      | sending it => exact ⟨.fanin, by simp [step, fanInStep]⟩
      | closed => exact ⟨.fanin, by simp [step, fanInStep]⟩
  | waiting it =>
    have he := h7 it rfl
    have hok := h1 it (by simp [held])
    simp only [itemOk, he] at hok
    obtain ⟨-, -, hok⟩ := hok
    cases hr : it.resCh with
    | none => simp [hr] at hok
    | some w =>
      cases w with
      | started =>
        obtain ⟨p, hp⟩ := work_enabled env it (Or.inl hr)
        exact ⟨.workHeld, by simp [step, hp, Option.map_some']⟩
      | got c =>
        obtain ⟨p, hp⟩ := work_enabled env it (Or.inr ⟨c, hr⟩)
        exact ⟨.workHeld, by simp [step, hp, Option.map_some']⟩
      | result r =>
        cases r with
        | some err => exact ⟨.fanin, by simp [step, fanInStep, hr]⟩
        | none =>
          cases hw : env.kw.Write out it.key with
          | some err => exact ⟨.fanin, by simp [step, fanInStep, hr, hw]⟩
          | none => exact ⟨.fanin, by simp [step, fanInStep, hr, hw]⟩

theorem run_append {K C : Type} [KeyString K] (env : Env K C) :
    ∀ (sched sched2 : List Action) (s : State K C),
      run env (sched ++ sched2) s = (run env sched s).bind (run env sched2) := by
  intro sched
  induction sched with
  | nil => intro sched2 s; rfl
  | cons a sched ih =>
    intro sched2 s
    simp only [List.cons_append, run]
    cases step env a s with
    | none => rfl
    | some s1 => exact ih sched2 s1

/-- From every state that satisfies the invariant, `Move` can return. -/
theorem completes {K C : Type} [KeyString K] (env : Env K C) :
    ∀ (n : Nat) (s : State K C), Inv env s → potential env s ≤ n →
      ∃ sched s2 r, run env sched s = some s2 ∧ s2.fanin = .returned r := by
  intro n
  induction n with
  | zero =>
    intro s h hp
    by_cases hfi : ∃ r, s.fanin = .returned r
    · obtain ⟨r, hr⟩ := hfi
      exact ⟨[], s, r, rfl, hr⟩
    · obtain ⟨a, s2, hs⟩ := progress env s h (fun r hr => hfi ⟨r, hr⟩)
      have := step_potential env a s s2 h hs
      omega
  | succ n ih =>
    intro s h hp
    by_cases hfi : ∃ r, s.fanin = .returned r
    · obtain ⟨r, hr⟩ := hfi
      exact ⟨[], s, r, rfl, hr⟩
    · obtain ⟨a, s2, hs⟩ := progress env s h (fun r hr => hfi ⟨r, hr⟩)
      have hlt := step_potential env a s s2 h hs
      obtain ⟨sched, s3, r, hrun, hr⟩ := ih s2 (step_inv env a s s2 h hs) (by omega)
      exact ⟨a :: sched, s3, r, by simp only [run, hs, hrun], hr⟩

/-- A schedule that can be run is no longer than the potential it uses up. -/
theorem run_length {K C : Type} [KeyString K] (env : Env K C) :
    ∀ (sched : List Action) (s s2 : State K C), Inv env s → run env sched s = some s2 →
      sched.length + potential env s2 ≤ potential env s := by
  intro sched
  induction sched with
  | nil =>
    intro s s2 _ hr
    simp only [run, Option.some.injEq] at hr
    subst hr
    simp
  | cons a sched ih =>
    intro s s2 h hr
    simp only [run] at hr
    cases hs : step env a s with
    | none => simp [hs] at hr
    | some s1 =>
      simp only [hs] at hr
      have h1 := ih s1 s2 (step_inv env a s s1 h hs) hr
      have h2 := step_potential env a s s1 h hs
      simp only [List.length_cons]
      omega

/-- Fan-in never changes after `Move` returned, nor does the output. -/
theorem step_returned {K C : Type} [KeyString K] (env : Env K C) (a : Action) (s s2 : State K C)
    (r : Option Error) (hfi : s.fanin = .returned r) (hs : step env a s = some s2) :
    s2.fanin = .returned r ∧ s2.out = s.out := by
  obtain ⟨fo, ch, fi, reads, out, tr⟩ := s
  simp only at hfi
  subst hfi
  cases a with
  | fanout =>
    simp only [step] at hs
    cases fo with
    | reading =>
      simp only [Option.some.injEq] at hs
      subst hs
      unfold fanOutStep
      simp only
      split
      · split <;> exact ⟨rfl, rfl⟩
      · split <;> exact ⟨rfl, rfl⟩
    | _ => simp at hs
  | send =>
    simp only [step] at hs
    cases fo with
    | sending it =>
      simp only at hs
      split at hs
      · simp only [Option.some.injEq] at hs
        subst hs
        exact ⟨rfl, rfl⟩
      · simp at hs
    | _ => simp at hs
  | fanin => simp [step, fanInStep] at hs
  | workHeld => simp [step] at hs
  | workSending =>
    simp only [step] at hs
    cases fo with
    | sending x =>
      simp only [Option.map_eq_some'] at hs
      obtain ⟨p, -, hs⟩ := hs
      subst hs
      exact ⟨rfl, rfl⟩
    | _ => simp at hs
  | workQueued i =>
    simp only [step, Option.map_eq_some'] at hs
    obtain ⟨p, -, hs⟩ := hs
    subst hs
    exact ⟨rfl, rfl⟩

/-! ## Executions of `Move` -/

/-- A successful setup made store and index calls only, and the index is in use
if it was primed. -/
theorem setup_ok {K C : Type} [KeyString K] (kr : KeyReader K) (kw : KeyWriter K)
    (conf : Config K C) (tr : List (Event K C))
    (r : Store K C × Store K C × Option (KeyIndex K)) (h : setup conf = (tr, .ok r)) :
    (∀ e ∈ tr, eventOk (mkEnv kr kw conf r) e) ∧ spawned tr = [] ∧
      (∀ e ∈ tr, e = Event.MoveSrc ∨ e = Event.MoveDst ∨ e = Event.Index) := by
  unfold setup at h
  split at h
  · simp at h
  · split at h
    · simp at h
    · split at h
      · split at h
        · simp at h
        · simp only [Prod.mk.injEq, Except.ok.injEq] at h
          obtain ⟨h1, h2⟩ := h
          subst h1 h2
          refine ⟨?_, rfl, ?_⟩
          · intro e he
            simp only [List.mem_cons, List.mem_singleton, List.not_mem_nil, or_false] at he
            rcases he with he | he | he <;> subst he <;> simp [eventOk, mkEnv]
          · intro e he
            simpa using he
      · simp only [Prod.mk.injEq, Except.ok.injEq] at h
        obtain ⟨h1, h2⟩ := h
        subst h1 h2
        refine ⟨?_, rfl, ?_⟩
        · intro e he
          simp only [List.mem_cons, List.mem_singleton, List.not_mem_nil, or_false] at he
          rcases he with he | he <;> subst he <;> simp [eventOk]
        · intro e he
          simp only [List.mem_cons, List.mem_singleton, List.not_mem_nil, or_false] at he
          rcases he with he | he <;> simp [he]

/-- After a successful setup, `Move` is the run of the schedule from `start`. -/
theorem Move_ok {K C : Type} [KeyString K] (kr : KeyReader K) (kw : KeyWriter K)
    (conf : Config K C) (tr : List (Event K C))
    (r : Store K C × Store K C × Option (KeyIndex K)) (h : setup conf = (tr, .ok r))
    (sched : List Action) :
    Move kr kw conf sched = run (mkEnv kr kw conf r) sched (start tr) := by
  simp only [Move, h]

/-- Every state `Move` reaches after a successful setup satisfies the invariant. -/
theorem Move_inv {K C : Type} [KeyString K] (kr : KeyReader K) (kw : KeyWriter K)
    (conf : Config K C) (tr : List (Event K C))
    (r : Store K C × Store K C × Option (KeyIndex K)) (h : setup conf = (tr, .ok r))
    (sched : List Action) (s : State K C) (hm : Move kr kw conf sched = some s) :
    Inv (mkEnv kr kw conf r) s := by
  rw [Move_ok kr kw conf tr r h] at hm
  have hs := setup_ok kr kw conf tr r h
  exact run_inv _ sched _ s (start_inv _ tr hs.1 hs.2.1) hm

/-- After a failed setup, `Move` has returned and no goroutine exists. -/
theorem Move_failed {K C : Type} [KeyString K] (kr : KeyReader K) (kw : KeyWriter K)
    (conf : Config K C) (tr : List (Event K C)) (err : Error) (h : setup conf = (tr, .error err))
    (sched : List Action) (s : State K C) (hm : Move kr kw conf sched = some s) :
    sched = [] ∧ s = failed tr err := by
  simp only [Move, h] at hm
  cases sched with
  | nil =>
    simp only [Option.some.injEq] at hm
    exact ⟨rfl, hm.symm⟩
  | cons a sched => simp at hm

/-- `Move` returns in some execution. -/
theorem Move_completes {K C : Type} [KeyString K] (kr : KeyReader K) (kw : KeyWriter K)
    (conf : Config K C) :
    ∃ sched s r, Move kr kw conf sched = some s ∧ s.fanin = .returned r := by
  rcases hset : setup conf with ⟨tr, r | r⟩
  · exact ⟨[], failed tr r, some r, by simp [Move, hset], rfl⟩
  · have hs := setup_ok kr kw conf tr r hset
    obtain ⟨sched, s, res, hrun, hres⟩ :=
      completes (mkEnv kr kw conf r) _ (start tr) (start_inv _ tr hs.1 hs.2.1) (Nat.le_refl _)
    exact ⟨sched, s, res, by rw [Move_ok kr kw conf tr r hset]; exact hrun, hres⟩

/-- Whatever the schedule, once `Move` has returned its value and output are those
of the fan-in loop drained sequentially over the whole input. -/
theorem Move_returned {K C : Type} [KeyString K] (kr : KeyReader K) (kw : KeyWriter K)
    (conf : Config K C) (tr : List (Event K C))
    (r : Store K C × Store K C × Option (KeyIndex K)) (h : setup conf = (tr, .ok r))
    (sched : List Action) (s : State K C) (res : Option Error)
    (hm : Move kr kw conf sched = some s) (hres : s.fanin = .returned res) :
    (res, s.out) = drain (mkEnv kr kw conf r) (future (mkEnv kr kw conf r) 0) [] := by
  have hinv := (Move_inv kr kw conf tr r h sched s hm).spec_ok
  simpa [specOk, hres] using hinv

/-- Keys that all transfer and are written without error are drained to the
output. -/
theorem drain_ok {K C : Type} [KeyString K] (env : Env K C) :
    ∀ (ks : List K) (rest : List (item K C)) (out : List K), allOk env out ks →
      drain env (ks.map (fun k => { key := k, resCh := some .started, err := none }) ++ rest) out
        = drain env rest (out ++ ks) := by
  intro ks
  induction ks with
  | nil => intro rest out _; simp
  | cons k ks ih =>
    intro rest out h
    obtain ⟨h1, h2, h3⟩ := h
    simp only [List.map_cons, List.cons_append]
    rw [drain]
    simp only [h1, h2]
    rw [ih rest (out ++ [k]) h3]
    simp

/-- A nil result of the drained loop means a clean end of the reader and success
for every key. -/
theorem drain_none {K C : Type} [KeyString K] (env : Env K C) :
    ∀ (ks : List K) (out o2 : List K),
      drain env (ks.map (fun k => { key := k, resCh := some .started, err := none })
        ++ tailItems env) out = (none, o2) →
      o2 = out ++ ks ∧ env.kr.last.2 = .EOF ∧ allOk env out ks := by
  intro ks
  induction ks with
  | nil =>
    intro out o2 h
    simp only [List.map_nil, List.nil_append] at h
    unfold tailItems at h
    cases hl : env.kr.last.2 with
    | EOF =>
      simp only [hl, drain, Prod.mk.injEq, true_and] at h
      exact ⟨by simp [h], rfl, trivial⟩
    | New text => simp [hl, drain] at h
  | cons k ks ih =>
    intro out o2 h
    simp only [List.map_cons, List.cons_append] at h
    rw [drain] at h
    simp only at h
    cases ht : transfer env k with
    | some err => simp [ht] at h
    | none =>
      simp only [ht] at h
      cases hw : env.kw.Write out k with
      | some err => simp [hw] at h
      | none =>
        simp only [hw] at h
        obtain ⟨h1, h2, h3⟩ := ih (out ++ [k]) o2 h
        exact ⟨by simp [h1], h2, ht, hw, h3⟩

theorem allOk_append {K C : Type} [KeyString K] (env : Env K C) :
    ∀ (a b out : List K), allOk env out (a ++ b) ↔ allOk env out a ∧ allOk env (out ++ a) b := by
  intro a
  induction a with
  | nil => intro b out; simp [allOk]
  | cons k a ih =>
    intro b out
    show (transfer env k = none ∧ env.kw.Write out k = none ∧ allOk env (out ++ [k]) (a ++ b)) ↔
      (transfer env k = none ∧ env.kw.Write out k = none ∧ allOk env (out ++ [k]) a) ∧
        allOk env (out ++ k :: a) b
    rw [ih b (out ++ [k])]
    simp only [List.append_assoc, List.singleton_append]
    tauto

theorem future_zero {K C : Type} (env : Env K C) :
    future env 0 =
      (todo env env.kr.keys).map (fun k => { key := k, resCh := some .started, err := none })
        ++ tailItems env := by
  simp [future]

/-- The result when every key succeeds: nil after `io.EOF`, the wrapped reader
error otherwise. -/
theorem result_ok {K C : Type} [KeyString K] (env : Env K C)
    (h : allOk env [] (todo env env.kr.keys)) :
    drain env (future env 0) [] =
      (match env.kr.last.2 with
        | .EOF => none
        | err => some (Errorf "failed to iterate: " (Errorf "failed to iterate into next key: " err)),
        todo env env.kr.keys) := by
  rw [future_zero, drain_ok env _ _ _ h]
  unfold tailItems
  cases env.kr.last.2 <;> simp [drain]

/-- The result when the transfer of `k` is the first failure. -/
theorem result_fail {K C : Type} [KeyString K] (env : Env K C) (a b : List K) (k : K)
    (err : Error) (hsplit : todo env env.kr.keys = a ++ k :: b) (ha : allOk env [] a)
    (hk : transfer env k = some err) :
    drain env (future env 0) [] = (some err, a) := by
  rw [future_zero, hsplit, List.map_append, List.append_assoc, drain_ok env _ _ _ ha]
  simp [drain, hk]

/-- The result when the write of `k` is the first failure. -/
theorem result_write_fail {K C : Type} [KeyString K] (env : Env K C) (a b : List K) (k : K)
    (err : Error) (hsplit : todo env env.kr.keys = a ++ k :: b) (ha : allOk env [] a)
    (hk : transfer env k = none) (hw : env.kw.Write a k = some err) :
    drain env (future env 0) [] = (some (ErrorfKey "handler failed for key " k ": " err), a) := by
  rw [future_zero, hsplit, List.map_append, List.append_assoc, drain_ok env _ _ _ ha]
  simp [drain, hk, hw]

/-- C1 (output order): when `Move` returns nil, whatever the schedule of the
goroutines was, the keys written to `kw` are exactly the keys read from `kr`
with the keys skipped by the primed index removed, in input order and with
duplicates kept; the reader then ended with `io.EOF`. -/
theorem C1_output_is_unskipped_input {K C : Type} [KeyString K] (kr : KeyReader K)
    (kw : KeyWriter K) (conf : Config K C) (sched : List Action) (s : State K C)
    (hm : Move kr kw conf sched = some s) (hret : s.fanin = .returned none) :
    ∃ tr r, setup conf = (tr, .ok r) ∧ kr.last.2 = .EOF ∧
      s.out = kr.keys.filter (fun k => !skip (mkEnv kr kw conf r) k) := by
  rcases hset : setup conf with ⟨tr, err | r⟩
  · have := (Move_failed kr kw conf tr err hset sched s hm).2
    subst this
    simp [failed] at hret
  · refine ⟨tr, r, rfl, ?_⟩
    have h := Move_returned kr kw conf tr r hset sched s none hm hret
    rw [future_zero] at h
    obtain ⟨h1, h2, -⟩ := drain_none _ _ _ _ h.symm
    exact ⟨h2, by simpa [todo] using h1⟩

theorem C1_witness :
    (Move exReader exWriter exConfRemote exSchedule = some exFinal ∧
      exFinal.fanin = .returned none) ∧ exFinal.out = [10, 12] ∧
    ∃ tr r, setup exConfRemote = (tr, .ok r) ∧ exReader.last.2 = .EOF ∧
      exFinal.out = exReader.keys.filter (fun k => !skip (mkEnv exReader exWriter exConfRemote r) k) :=
  ⟨⟨rfl, rfl⟩, rfl,
    C1_output_is_unskipped_input exReader exWriter exConfRemote exSchedule exFinal rfl rfl⟩

theorem todo_append {K C : Type} (env : Env K C) (a b : List K) :
    todo env (a ++ b) = todo env a ++ todo env b := by
  simp [todo]

/-- C2 (fail fast): let `k` be the first key in input order whose transfer (`Get`
or `Put`) fails, the non-skipped keys before it transferring and being written
without error.  Then `Move` does return, every execution returns the error of
that transfer, and the keys written are exactly the non-skipped keys before
`k`: neither `k` nor any later key is written, whatever their own outcome. -/
theorem C2_fail_fast {K C : Type} [KeyString K] (kr : KeyReader K) (kw : KeyWriter K)
    (conf : Config K C) (tr : List (Event K C))
    (r : Store K C × Store K C × Option (KeyIndex K)) (hset : setup conf = (tr, .ok r))
    (pre post : List K) (k : K) (err : Error) (hkeys : kr.keys = pre ++ k :: post)
    (hskip : skip (mkEnv kr kw conf r) k = false)
    (hpre : allOk (mkEnv kr kw conf r) [] (todo (mkEnv kr kw conf r) pre))
    (hfail : transfer (mkEnv kr kw conf r) k = some err) :
    (∃ sched s, Move kr kw conf sched = some s ∧ s.fanin = .returned (some err)) ∧
    ∀ sched s res, Move kr kw conf sched = some s → s.fanin = .returned res →
      res = some err ∧ s.out = todo (mkEnv kr kw conf r) pre := by
  have hall : ∀ sched s res, Move kr kw conf sched = some s → s.fanin = .returned res →
      res = some err ∧ s.out = todo (mkEnv kr kw conf r) pre := by
    intro sched s res hm hret
    have h := Move_returned kr kw conf tr r hset sched s res hm hret
    have hsplit : todo (mkEnv kr kw conf r) (mkEnv kr kw conf r).kr.keys =
        todo (mkEnv kr kw conf r) pre ++ k :: todo (mkEnv kr kw conf r) post := by
      have : (mkEnv kr kw conf r).kr.keys = pre ++ k :: post := hkeys
      rw [this, todo_append]
      simp [todo, hskip]
    rw [result_fail _ _ _ k err hsplit hpre hfail] at h
    simpa using h
  refine ⟨?_, hall⟩
  obtain ⟨sched, s, res, hm, hret⟩ := Move_completes kr kw conf
  have := (hall sched s res hm hret).1
  subst this
  exact ⟨sched, s, hm, hret⟩

theorem C2_witness :
    (∃ sched s, Move exReaderGetFails exWriter exConf sched = some s ∧
      s.fanin = .returned
        (some (ErrorfKey "failed to get chunk " (13 : Nat) " from store: " (.New "no such key")))) ∧
    ∀ sched s res, Move exReaderGetFails exWriter exConf sched = some s →
      s.fanin = .returned res →
      res = some (ErrorfKey "failed to get chunk " (13 : Nat) " from store: " (.New "no such key")) ∧
        s.out = [10] :=
  C2_fail_fast exReaderGetFails exWriter exConf [.MoveSrc, .MoveDst] (exSrc, exDst, none) rfl
    [10] [12] 13 _ rfl rfl ⟨rfl, rfl, trivial⟩ rfl

/-- Every execution of `Move` can be continued to one in which `Move` has
returned: no reachable state is a deadlock of the fan-in loop. -/
theorem Move_extends {K C : Type} [KeyString K] (kr : KeyReader K) (kw : KeyWriter K)
    (conf : Config K C) (sched : List Action) (s : State K C)
    (hm : Move kr kw conf sched = some s) :
    ∃ sched2 s2 res, Move kr kw conf (sched ++ sched2) = some s2 ∧ s2.fanin = .returned res := by
  rcases hset : setup conf with ⟨tr, err | r⟩
  · obtain ⟨h1, h2⟩ := Move_failed kr kw conf tr err hset sched s hm
    subst h1 h2
    exact ⟨[], failed tr err, some err, by simpa using hm, rfl⟩
  · have hinv := Move_inv kr kw conf tr r hset sched s hm
    obtain ⟨sched2, s2, res, hrun, hres⟩ := completes (mkEnv kr kw conf r) _ s hinv (Nat.le_refl _)
    refine ⟨sched2, s2, res, ?_, hres⟩
    rw [Move_ok kr kw conf tr r hset] at hm ⊢
    rw [run_append, hm]
    exact hrun

/-- Every execution of `Move` is finite: a schedule that can be run is no longer
than seven steps for each call of `Read` and one more. -/
theorem Move_terminates {K C : Type} [KeyString K] (kr : KeyReader K) (kw : KeyWriter K)
    (conf : Config K C) (sched : List Action) (s : State K C)
    (hm : Move kr kw conf sched = some s) : sched.length ≤ 7 * (kr.keys.length + 1) + 1 := by
  rcases hset : setup conf with ⟨tr, err | r⟩
  · obtain ⟨h1, -⟩ := Move_failed kr kw conf tr err hset sched s hm
    subst h1
    simp
  · rw [Move_ok kr kw conf tr r hset] at hm
    have hs := setup_ok kr kw conf tr r hset
    have h := run_length (mkEnv kr kw conf r) sched _ s (start_inv _ tr hs.1 hs.2.1) hm
    have h0 : potential (mkEnv kr kw conf r) (start tr) = 7 * (kr.keys.length + 1) + 1 := by
      simp [potential, start, held, mkEnv]
    omega

/-- The setup succeeds exactly when both stores resolve and, for a `RemoteStore`
destination with a configured index, priming reports no error. -/
theorem setup_ok_iff {K C : Type} (conf : Config K C) :
    (∃ tr r, setup conf = (tr, .ok r)) ↔
      ∃ src dst, conf.Stores.MoveSrc = .ok src ∧ conf.Stores.MoveDst = .ok dst ∧
        ∀ remote idx, dst.RemoteStore = some remote → conf.Index = some idx →
          (remote.Index idx).2 = none := by
  unfold setup
  cases hsrc : conf.Stores.MoveSrc with
  | error err => simp
  | ok src =>
    cases hdst : conf.Stores.MoveDst with
    | error err => simp
    | ok dst =>
      simp only [Except.ok.injEq, exists_and_left, exists_eq_left']
      cases hrem : dst.RemoteStore with
      | none => simp
      | some remote =>
        cases hidx : conf.Index with
        | none => simp
        | some idx =>
          simp only [Option.some.injEq, forall_eq']
          rcases hp : remote.Index idx with ⟨idx2, err | err⟩
          · simp [hp]
          · simp [hp]

/-- C7 (setup failures): when `MoveSrc` fails, when `MoveDst` fails, or when the
destination is a `RemoteStore`, an index is configured and `remote.Index` fails,
`Move` returns the wrapped error at once: no key was read or written, and the
only calls made are the ones listed, so `MoveDst` is not resolved after a failed
`MoveSrc`, the index is not primed after a failed resolution, and no `Get`, `Put`
or `Write` happened. -/
theorem C7_setup_failures {K C : Type} [KeyString K] (kr : KeyReader K) (kw : KeyWriter K)
    (conf : Config K C) :
    (∀ err, conf.Stores.MoveSrc = .error err →
      (∃ s, Move kr kw conf [] = some s) ∧
      ∀ sched s, Move kr kw conf sched = some s →
        s.fanin = .returned (some (Errorf "couldnt get store to move from: " err)) ∧
        s.reads = 0 ∧ s.out = [] ∧ s.trace = [.MoveSrc]) ∧
    (∀ src err, conf.Stores.MoveSrc = .ok src → conf.Stores.MoveDst = .error err →
      (∃ s, Move kr kw conf [] = some s) ∧
      ∀ sched s, Move kr kw conf sched = some s →
        s.fanin = .returned (some (Errorf "couldnt get store to move to: " err)) ∧
        s.reads = 0 ∧ s.out = [] ∧ s.trace = [.MoveSrc, .MoveDst]) ∧
    (∀ src dst remote idx idx2 err, conf.Stores.MoveSrc = .ok src →
      conf.Stores.MoveDst = .ok dst → dst.RemoteStore = some remote → conf.Index = some idx →
      remote.Index idx = (idx2, some err) →
      (∃ s, Move kr kw conf [] = some s) ∧
      ∀ sched s, Move kr kw conf sched = some s →
        s.fanin = .returned (some (Errorf "failed to index remote: " err)) ∧
        s.reads = 0 ∧ s.out = [] ∧ s.trace = [.MoveSrc, .MoveDst, .Index]) := by
  refine ⟨?_, ?_, ?_⟩
  · intro err h1
    have hset : setup conf = ([.MoveSrc], .error (Errorf "couldnt get store to move from: " err)) := by
      simp [setup, h1]
    refine ⟨⟨failed _ _, by simp only [Move, hset]; rfl⟩, ?_⟩
    intro sched s hm
    have := (Move_failed kr kw conf _ _ hset sched s hm).2
    subst this
    exact ⟨rfl, rfl, rfl, rfl⟩
  · intro src err h1 h2
    have hset : setup conf =
        ([.MoveSrc, .MoveDst], .error (Errorf "couldnt get store to move to: " err)) := by
      simp [setup, h1, h2]
    refine ⟨⟨failed _ _, by simp only [Move, hset]; rfl⟩, ?_⟩
    intro sched s hm
    have := (Move_failed kr kw conf _ _ hset sched s hm).2
    subst this
    exact ⟨rfl, rfl, rfl, rfl⟩
  · intro src dst remote idx idx2 err h1 h2 h3 h4 h5
    have hset : setup conf =
        ([.MoveSrc, .MoveDst, .Index], .error (Errorf "failed to index remote: " err)) := by
      simp [setup, h1, h2, h3, h4, h5]
    refine ⟨⟨failed _ _, by simp only [Move, hset]; rfl⟩, ?_⟩
    intro sched s hm
    have := (Move_failed kr kw conf _ _ hset sched s hm).2
    subst this
    exact ⟨rfl, rfl, rfl, rfl⟩

theorem C7_witness :
    (∃ s, Move exReader exWriter exConfNoSrc [] = some s) ∧
    ∀ sched s, Move exReader exWriter exConfNoSrc sched = some s →
      s.fanin = .returned (some (Errorf "couldnt get store to move from: " (.New "no source"))) ∧
      s.reads = 0 ∧ s.out = [] ∧ s.trace = [.MoveSrc] :=
  (C7_setup_failures exReader exWriter exConfNoSrc).1 (.New "no source") rfl

theorem contents_stable {K C : Type} [DecidableEq K] (dst : Store K C) (k : K) (c : C) :
    ∀ (tr : List (Event K C)) (m : K → Option C),
      (∀ c2, Event.Put k c2 ∈ tr → c2 = c) → m k = some c → contents dst m tr k = some c := by
  intro tr
  induction tr with
  | nil => intro m _ hm; exact hm
  | cons e tr ih =>
    intro m hall hm
    have hall2 : ∀ c2, Event.Put k c2 ∈ tr → c2 = c :=
      fun c2 h => hall c2 (List.mem_cons_of_mem _ h)
    cases e with
    | Put k2 c2 =>
      simp only [contents]
      apply ih _ hall2
      split
      · by_cases hk : k2 = k
        · subst hk
          have := hall c2 (List.mem_cons_self _ _)
          simp [this]
        · rw [Function.update_noteq (Ne.symm hk)]
          exact hm
      · exact hm
    | _ => exact ih m hall2 hm

/-- A successful `Put` of `c` under `k` is what a mapping holds under `k`, when every
`Put` under `k` carries `c`. -/
theorem contents_put {K C : Type} [DecidableEq K] (dst : Store K C) (k : K) (c : C)
    (hput : dst.Put k c = none) :
    ∀ (tr : List (Event K C)) (m : K → Option C),
      (∀ c2, Event.Put k c2 ∈ tr → c2 = c) → Event.Put k c ∈ tr →
      contents dst m tr k = some c := by
  intro tr
  induction tr with
  | nil => intro m _ h; simp at h
  | cons e tr ih =>
    intro m hall hmem
    have hall2 : ∀ c2, Event.Put k c2 ∈ tr → c2 = c :=
      fun c2 h => hall c2 (List.mem_cons_of_mem _ h)
    rcases List.mem_cons.mp hmem with heq | hin
    · subst heq
      simp only [contents, hput, Option.isNone_none, if_true]
      exact contents_stable dst k c tr _ hall2 (by simp)
    · cases e with
      | Put k2 c2 => exact ih _ hall2 hin
      | _ => exact ih m hall2 hin

/-- C3 (deduplication fast path): with a `RemoteStore` destination, a configured
index and successful priming, a key the primed index reports as present is never
handed to a worker, never fetched, never put and never written, in any
execution.  If the index holds every key of the reader, no `Get`, no `Put` and
no `Write` is ever made, and for a reader that ends with `io.EOF` `Move` returns
nil. -/
theorem C3_index_skips {K C : Type} [KeyString K] (kr : KeyReader K) (kw : KeyWriter K)
    (conf : Config K C) (src dst : Store K C) (remote : RemoteStore K) (idx0 idx : KeyIndex K)
    (hsrc : conf.Stores.MoveSrc = .ok src) (hdst : conf.Stores.MoveDst = .ok dst)
    (hremote : dst.RemoteStore = some remote) (hidx : conf.Index = some idx0)
    (hprime : remote.Index idx0 = (idx, none)) :
    (∀ sched s k, Move kr kw conf sched = some s → idx.Has k = true →
      Event.go k ∉ s.trace ∧ Event.Get k ∉ s.trace ∧ (∀ c, Event.Put k c ∉ s.trace) ∧
        Event.Write k ∉ s.trace ∧ k ∉ s.out) ∧
    ((∀ k ∈ kr.keys, idx.Has k = true) →
      (∀ sched s, Move kr kw conf sched = some s →
        (∀ k, Event.Get k ∉ s.trace) ∧ (∀ k c, Event.Put k c ∉ s.trace) ∧
          (∀ k, Event.Write k ∉ s.trace) ∧ s.out = []) ∧
      (kr.last.2 = .EOF →
        (∃ sched s, Move kr kw conf sched = some s ∧ s.fanin = .returned none) ∧
        ∀ sched s res, Move kr kw conf sched = some s → s.fanin = .returned res →
          res = none)) := by
  have hset : setup conf = ([.MoveSrc, .MoveDst, .Index], .ok (src, dst, some idx)) := by
    simp [setup, hsrc, hdst, hremote, hidx, hprime]
  have hskip : ∀ k, skip (mkEnv kr kw conf (src, dst, some idx)) k = idx.Has k := fun _ => rfl
  have hkeys : (mkEnv kr kw conf (src, dst, some idx)).kr.keys = kr.keys := rfl
  constructor
  · intro sched s k hm hhas
    have hinv := Move_inv kr kw conf _ _ hset sched s hm
    have hno : ∀ e, e ∈ s.trace → eventOk (mkEnv kr kw conf (src, dst, some idx)) e :=
      hinv.trace_ok
    refine ⟨?_, ?_, ?_, ?_, ?_⟩
    · intro h
      have := (hno _ h).2
      rw [hskip, hhas] at this
      exact absurd this (by simp)
    · intro h
      have := (hno _ h).2
      rw [hskip, hhas] at this
      exact absurd this (by simp)
    · intro c h
      have := (hno _ h).2.1
      rw [hskip, hhas] at this
      exact absurd this (by simp)
    · intro h
      have := (hno _ h).2
      rw [hskip, hhas] at this
      exact absurd this (by simp)
    · intro h
      have := (hinv.out_ok k h).2.1
      rw [hskip, hhas] at this
      exact absurd this (by simp)
  · intro hall
    constructor
    · intro sched s hm
      have hinv := Move_inv kr kw conf _ _ hset sched s hm
      have hno : ∀ e, e ∈ s.trace → eventOk (mkEnv kr kw conf (src, dst, some idx)) e :=
        hinv.trace_ok
      refine ⟨?_, ?_, ?_, ?_⟩
      · intro k h
        have h2 := hno _ h
        have := h2.2
        rw [hskip, hall k h2.1] at this
        exact absurd this (by simp)
      · intro k c h
        have h2 := hno _ h
        have := h2.2.1
        rw [hskip, hall k h2.1] at this
        exact absurd this (by simp)
      · intro k h
        have h2 := hno _ h
        have := h2.2
        rw [hskip, hall k h2.1] at this
        exact absurd this (by simp)
      · apply List.eq_nil_iff_forall_not_mem.mpr
        intro k h
        have h2 := hinv.out_ok k h
        have := h2.2.1
        rw [hskip, hall k h2.1] at this
        exact absurd this (by simp)
    · intro heof
      have htodo : todo (mkEnv kr kw conf (src, dst, some idx))
          (mkEnv kr kw conf (src, dst, some idx)).kr.keys = [] := by
        rw [hkeys]
        simp only [todo, List.filter_eq_nil_iff]
        intro k hk
        rw [hskip, hall k hk]
        simp
      have hres : ∀ sched s res, Move kr kw conf sched = some s → s.fanin = .returned res →
          res = none := by
        intro sched s res hm hret
        have h := Move_returned kr kw conf _ _ hset sched s res hm hret
        rw [result_ok _ (by rw [htodo]; trivial)] at h
        have hl : (mkEnv kr kw conf (src, dst, some idx)).kr.last.2 = .EOF := heof
        simp only [hl, Prod.mk.injEq] at h
        exact h.1
      refine ⟨?_, hres⟩
      obtain ⟨sched, s, res, hm, hret⟩ := Move_completes kr kw conf
      have := hres sched s res hm hret
      subst this
      exact ⟨sched, s, hm, hret⟩

theorem C3_witness :
    (∀ sched s, Move exReader exWriter exConfAll sched = some s →
      (∀ k, Event.Get k ∉ s.trace) ∧ (∀ k c, Event.Put k c ∉ s.trace) ∧
        (∀ k, Event.Write k ∉ s.trace) ∧ s.out = []) ∧
    (exReader.last.2 = .EOF →
      (∃ sched s, Move exReader exWriter exConfAll sched = some s ∧
        s.fanin = .returned none) ∧
      ∀ sched s res, Move exReader exWriter exConfAll sched = some s →
        s.fanin = .returned res → res = none) :=
  (C3_index_skips exReader exWriter exConfAll exSrc _ _ _ { Has := fun _ => true } rfl rfl rfl
    rfl rfl).2 (fun _ _ => rfl)

theorem held_length {K C : Type} (s : State K C) : (held s).length ≤ s.itemCh.length + 2 := by
  obtain ⟨fo, ch, fi, reads, out, tr⟩ := s
  cases fo <;> cases fi <;> simp [held]

/-- In every execution at most `MoveConcurrency + 2` workers are started and not
yet collected: one that fan-in waits for, `MoveConcurrency` in the buffer and one
that fan-out started before its blocked send. -/
theorem inflight_le {K C : Type} [KeyString K] (kr : KeyReader K) (kw : KeyWriter K)
    (conf : Config K C) (sched : List Action) (s : State K C)
    (hm : Move kr kw conf sched = some s) : inflight s ≤ conf.MoveConcurrency + 2 := by
  rcases hset : setup conf with ⟨tr, err | r⟩
  · have := (Move_failed kr kw conf tr err hset sched s hm).2
    subst this
    simp [inflight, held, failed]
  · have hinv := Move_inv kr kw conf tr r hset sched s hm
    have h1 : inflight s ≤ (held s).length := List.length_filter_le _ _
    have h2 := held_length s
    have h3 : s.itemCh.length ≤ conf.MoveConcurrency := hinv.cap_ok
    omega

/-- C8 (concurrency bound), evaluated: with `MoveConcurrency = 1` and three keys
there is an execution in which three workers are started and none is collected. -/
theorem C8_three_in_flight_with_MoveConcurrency_one :
    exConf.MoveConcurrency = 1 ∧
      (Move exReader exWriter exConf exScheduleFull).map inflight = some 3 :=
  ⟨rfl, rfl⟩

theorem work_cases {K C : Type} [KeyString K] (env : Env K C) (x y : item K C) (e : Event K C)
    (h : work env x = some (y, e)) :
    y.key = x.key ∧
    ((x.resCh = some .started ∧ e = .Get x.key ∧
        ∀ c, env.src.Get x.key = .ok c → y.resCh = some (.got c)) ∨
      (∃ c, x.resCh = some (.got c) ∧ e = .Put x.key c)) := by
  unfold work at h
  cases hr : x.resCh with
  | none => simp [hr] at h
  | some w =>
    cases w with
    | started =>
      simp only [hr] at h
      cases hg : env.src.Get x.key with
      | error err =>
        simp only [hg, Option.some.injEq, Prod.mk.injEq] at h
        obtain ⟨h1, h2⟩ := h
        subst h1 h2
        exact ⟨rfl, Or.inl ⟨rfl, rfl, fun c hc => by simp at hc⟩⟩
      | ok c =>
        simp only [hg, Option.some.injEq, Prod.mk.injEq] at h
        obtain ⟨h1, h2⟩ := h
        subst h1 h2
        refine ⟨rfl, Or.inl ⟨rfl, rfl, fun c2 hc => ?_⟩⟩
        simp only [Except.ok.injEq] at hc
        subst hc
        rfl
    | got c =>
      simp only [hr] at h
      cases hp : env.dst.Put x.key c <;>
        simp only [hp, Option.some.injEq, Prod.mk.injEq] at h <;>
        (obtain ⟨h1, h2⟩ := h; subst h1 h2; exact ⟨rfl, Or.inr ⟨c, rfl, rfl⟩⟩)
    | result r => simp [hr] at h

theorem worked_keep {K C : Type} (env : Env K C) (s s2 : State K C) (h : worked env s)
    (hheld : ∀ it ∈ held s, (it.resCh = some .started ∨ ∃ c, it.resCh = some (.got c)) →
      it ∈ held s2)
    (htr : ∀ e ∈ s.trace, e ∈ s2.trace)
    (hsp : ∀ k ∈ spawned s2.trace, k ∈ spawned s.trace ∨ pendingGet s2 k) :
    worked env s2 := by
  intro k hk
  rcases hsp k hk with hk1 | hk1
  · rcases h k hk1 with ⟨it, hit, hkey, hst⟩ | ⟨hg, hp⟩
    · exact Or.inl ⟨it, hheld it hit (Or.inl hst), hkey, hst⟩
    · refine Or.inr ⟨htr _ hg, fun c hc => ?_⟩
      rcases hp c hc with hput | ⟨it, hit, hkey, hst⟩
      · exact Or.inl (htr _ hput)
      · exact Or.inr ⟨it, hheld it hit (Or.inr ⟨c, hst⟩), hkey, hst⟩
  · exact Or.inl hk1

theorem worked_work {K C : Type} [KeyString K] (env : Env K C) (s s2 : State K C)
    (x y : item K C) (e : Event K C) (A B : List (item K C)) (h : worked env s)
    (hw : work env x = some (y, e)) (hs : held s = A ++ x :: B) (hs2 : held s2 = A ++ y :: B)
    (htr : s2.trace = s.trace ++ [e]) : worked env s2 := by
  obtain ⟨hkey, hcase⟩ := work_cases env x y e hw
  have hsp : spawned s2.trace = spawned s.trace := by
    rw [htr]
    exact spawned_work env s.trace x y e hw
  have hmem : ∀ it, it ∈ held s → it ∈ A ∨ it = x ∨ it ∈ B := by
    intro it hit
    rw [hs] at hit
    simpa using hit
  have hin : ∀ it, it ∈ A ∨ it ∈ B → it ∈ held s2 := by
    intro it hit
    rw [hs2]
    rcases hit with hit | hit <;> simp [hit]
  have hy : y ∈ held s2 := by rw [hs2]; simp
  intro k hk
  rw [hsp] at hk
  rcases h k hk with ⟨it, hit, hk1, hst⟩ | ⟨hg, hp⟩
  · rcases hmem it hit with ha | hx | hb
    · exact Or.inl ⟨it, hin it (Or.inl ha), hk1, hst⟩
    · subst hx
      rcases hcase with ⟨-, he, hgot⟩ | ⟨c, hc, -⟩
      · right
        refine ⟨by rw [htr, he, hk1]; simp, fun c hc => Or.inr ⟨y, hy, ?_, ?_⟩⟩
        · rw [hkey, hk1]
        · exact hgot c (by rw [hk1]; exact hc)
      · rw [hst] at hc
        simp at hc
    · exact Or.inl ⟨it, hin it (Or.inr hb), hk1, hst⟩
  · right
    refine ⟨by rw [htr]; exact List.mem_append_left _ hg, fun c hc => ?_⟩
    rcases hp c hc with hput | ⟨it, hit, hk1, hst⟩
    · exact Or.inl (by rw [htr]; exact List.mem_append_left _ hput)
    · rcases hmem it hit with ha | hx | hb
      · exact Or.inr ⟨it, hin it (Or.inl ha), hk1, hst⟩
      · subst hx
        rcases hcase with ⟨hs0, -, -⟩ | ⟨c2, hc2, he⟩
        · rw [hst] at hs0
          simp at hs0
        · rw [hst] at hc2
          simp only [Option.some.injEq, Work.got.injEq] at hc2
          subst hc2
          left
          rw [htr, he, hk1]
          simp
      · exact Or.inr ⟨it, hin it (Or.inr hb), hk1, hst⟩

/-- The bookkeeping of started workers survives every step. -/
theorem step_worked {K C : Type} [KeyString K] (env : Env K C) (a : Action) (s s2 : State K C)
    (hinv : Inv env s) (h : worked env s) (hs : step env a s = some s2) : worked env s2 := by
  obtain ⟨fo, ch, fi, reads, out, tr⟩ := s
  have hitem := hinv.held_ok
  have hdead : ∀ (x : item K C) (err : Error), x.err = some err →
      itemOk env tr x → (x.resCh = some .started ∨ ∃ c, x.resCh = some (.got c)) → False := by
    intro x err he hok hlive
    simp only [itemOk, he] at hok
    rcases hlive with hl | ⟨c, hl⟩ <;> simp [hok] at hl
  cases a with
  | fanout =>
    simp only [step] at hs
    cases fo with
    | reading =>
      simp only [Option.some.injEq] at hs
      subst hs
      unfold fanOutStep
      simp only
      split
      · split
        · apply worked_keep env _ _ h
          · intro it hit _; simpa [held] using hit
          · intro e he; simp [he]
          · intro k hk; left; simpa [spawned_append, spawned] using hk
        · apply worked_keep env _ _ h
          · intro it hit _
            simp only [held, List.append_nil, List.mem_append] at hit
            simp only [held, List.mem_append]
            exact Or.inl hit
          · intro e he; simp [he]
          · intro k hk; left; simpa [spawned_append, spawned] using hk
      · rename_i k hr
        split
        · apply worked_keep env _ _ h
          · intro it hit _; simpa [held] using hit
          · intro e he; simp [he]
          · intro k2 hk
            left
            have : spawned (tr ++ Event.Read :: skipTrace env k) = spawned tr := by
              rw [spawned_append]
              simp [spawned, spawned_skipTrace]
            simpa [this] using hk
        · apply worked_keep env _ _ h
          · intro it hit _
            simp only [held, List.append_nil, List.mem_append] at hit
            simp only [held, List.mem_append]
            exact Or.inl hit
          · intro e he; simp [he]
          · intro k2 hk
            have : spawned (tr ++ Event.Read :: (skipTrace env k ++ [Event.go k])) =
                spawned tr ++ [k] := by
              rw [spawned_append]
              simp only [spawned]
              rw [spawned_append]
              simp [spawned, spawned_skipTrace]
            simp only [this, List.mem_append, List.mem_singleton] at hk
            rcases hk with hk | hk
            · exact Or.inl hk
            · subst hk
              exact Or.inr ⟨{ key := k2, resCh := some .started, err := none }, by simp [held],
                rfl, rfl⟩
    | _ => simp at hs
  | send =>
    simp only [step] at hs
    cases fo with
    | sending it =>
      simp only at hs
      split at hs
      · simp only [Option.some.injEq] at hs
        subst hs
        apply worked_keep env _ _ h
        · intro x hx _
          unfold afterSend
          cases he : it.err <;> simpa [held] using hx
        · intro e he; exact he
        · intro k hk; exact Or.inl hk
      · simp at hs
    | _ => simp at hs
  | fanin =>
    simp only [step] at hs
    unfold fanInStep at hs
    cases fi with
    | returned r => simp at hs
    | ranging =>
      simp only at hs
      cases ch with
      | cons it rest =>
        simp only [Option.some.injEq] at hs
        subst hs
        apply worked_keep env _ _ h
        · intro x hx hlive
          unfold received
          cases he : it.err with
          | none => simpa [held] using hx
          | some err =>
            simp only [held, List.nil_append, List.cons_append, List.mem_cons,
              List.mem_append] at hx
            simp only [held, List.nil_append, List.mem_append]
            rcases hx with hx | hx
            · subst hx
              exact absurd (hdead x err he (hitem x (by simp [held])) hlive) id
            · exact hx
        · intro e he
          unfold received
          cases it.err <;> exact he
        · intro k hk
          left
          unfold received at hk
          cases he : it.err <;> simpa [he] using hk
      | nil =>
        simp only at hs
        cases fo with
        | sending it =>
          simp only [Option.some.injEq] at hs
          subst hs
          apply worked_keep env _ _ h
          · intro x hx hlive
            simp only [held, List.nil_append, List.mem_singleton] at hx
            subst hx
            unfold received afterSend
            cases he : x.err with
            | none => simp [held]
            | some err => exact absurd (hdead x err he (hitem x (by simp [held])) hlive) id
          · intro e he
            unfold received
            cases it.err <;> exact he
          · intro k hk
            left
            unfold received at hk
            cases he : it.err <;> simpa [he] using hk
        | closed =>
          simp only [Option.some.injEq] at hs
          subst hs
          apply worked_keep env _ _ h
          · intro x hx _; simp [held] at hx
          · intro e he; exact he
          · intro k hk; exact Or.inl hk
        | idle => simp at hs
        | reading => simp at hs
    | waiting it =>
      simp only at hs
      have hkeep : ∀ (tr2 : List (Event K C)) (fi2 : FanIn K C) (out2 : List K),
          (∀ r, fi2 ≠ .waiting r) → (∃ r, it.resCh = some (.result r)) →
          spawned tr2 = spawned tr → (∀ e ∈ tr, e ∈ tr2) →
          worked env ⟨fo, ch, fi2, reads, out2, tr2⟩ := by
        intro tr2 fi2 out2 hfi2 hres hsp2 htr2
        apply worked_keep env _ _ h
        · intro x hx hlive
          simp only [held, List.singleton_append, List.cons_append, List.mem_cons,
            List.mem_append] at hx
          rcases hx with hx | hx
          · subst hx
            obtain ⟨r, hr⟩ := hres
            rcases hlive with hl | ⟨c, hl⟩ <;> simp [hr] at hl
          · have : held (⟨fo, ch, fi2, reads, out2, tr2⟩ : State K C) =
                ch ++ held (⟨fo, [], .ranging, reads, out, tr⟩ : State K C) := by
              cases fi2 with
              | waiting r => exact absurd rfl (hfi2 r)
              | ranging => simp [held]
              | returned r => simp [held]
            rw [this]
            simpa [held] using hx
        · exact htr2
        · intro k hk
          left
          simpa [hsp2] using hk
      cases hr : it.resCh with
      | none => simp [hr] at hs
      | some w =>
        cases w with
        | started => simp [hr] at hs
        | got c => simp [hr] at hs
        | result r =>
          cases r with
          | some err =>
            simp only [hr, Option.some.injEq] at hs
            subst hs
            exact hkeep tr _ out (by simp) ⟨_, hr⟩ rfl (fun e he => he)
          | none =>
            simp only [hr] at hs
            cases hw : env.kw.Write out it.key <;>
              simp only [hw, Option.some.injEq] at hs <;>
              subst hs <;>
              exact hkeep _ _ _ (by simp) ⟨_, hr⟩ (by simp [spawned_append, spawned])
                (fun e he => List.mem_append_left _ he)
  | workHeld =>
    simp only [step] at hs
    cases fi with
    | waiting x =>
      simp only [Option.map_eq_some'] at hs
      obtain ⟨⟨y, e⟩, hw, hs⟩ := hs
      subst hs
      exact worked_work env _ _ x y e [] (ch ++ held (⟨fo, [], .ranging, reads, out, tr⟩ : State K C))
        h hw (by simp [held]) (by simp [held]) rfl
    | _ => simp at hs
  | workSending =>
    simp only [step] at hs
    cases fo with
    | sending x =>
      simp only [Option.map_eq_some'] at hs
      obtain ⟨⟨y, e⟩, hw, hs⟩ := hs
      subst hs
      exact worked_work env _ _ x y e (held (⟨.idle, ch, fi, reads, out, tr⟩ : State K C)) []
        h hw (by simp [held]) (by simp [held]) rfl
    | _ => simp at hs
  | workQueued i =>
    simp only [step, Option.map_eq_some'] at hs
    obtain ⟨⟨ch2, e⟩, hst, hs⟩ := hs
    subst hs
    obtain ⟨a, x, y, b, hch, hch2, hw⟩ := stepAt_some (work env) ch i ch2 e hst
    subst hch hch2
    exact worked_work env _ _ x y e (held (⟨.idle, a, fi, reads, out, tr⟩ : State K C))
      (b ++ held (⟨fo, [], .ranging, reads, out, tr⟩ : State K C)) h hw (by simp [held])
      (by simp [held]) rfl

theorem run_worked {K C : Type} [KeyString K] (env : Env K C) :
    ∀ (sched : List Action) (s s2 : State K C), Inv env s → worked env s →
      run env sched s = some s2 → worked env s2 := by
  intro sched
  induction sched with
  | nil =>
    intro s s2 _ h hr
    simp only [run, Option.some.injEq] at hr
    subst hr
    exact h
  | cons a sched ih =>
    intro s s2 hinv h hr
    simp only [run] at hr
    cases hs : step env a s with
    | none => simp [hs] at hr
    | some s1 =>
      simp only [hs] at hr
      exact ih s1 s2 (step_inv env a s s1 hinv hs) (step_worked env a s s1 hinv h hs) hr

theorem Move_worked {K C : Type} [KeyString K] (kr : KeyReader K) (kw : KeyWriter K)
    (conf : Config K C) (tr : List (Event K C))
    (r : Store K C × Store K C × Option (KeyIndex K)) (h : setup conf = (tr, .ok r))
    (sched : List Action) (s : State K C) (hm : Move kr kw conf sched = some s) :
    worked (mkEnv kr kw conf r) s := by
  rw [Move_ok kr kw conf tr r h] at hm
  have hs := setup_ok kr kw conf tr r h
  refine run_worked _ sched _ s (start_inv _ tr hs.1 hs.2.1) ?_ hm
  intro k hk
  simp [start, hs.2.1] at hk

/-- A successful setup returns the stores `conf.Stores` resolves and the index of
lines 55-65, and priming, if it was due, reported no error. -/
theorem setup_resolved {K C : Type} (conf : Config K C) (tr : List (Event K C))
    (r : Store K C × Store K C × Option (KeyIndex K)) (h : setup conf = (tr, .ok r)) :
    conf.Stores.MoveSrc = .ok r.1 ∧ conf.Stores.MoveDst = .ok r.2.1 ∧
      r.2.2 = usedIndex conf r.2.1 ∧
      ∀ remote idx, r.2.1.RemoteStore = some remote → conf.Index = some idx →
        (remote.Index idx).2 = none := by
  unfold setup at h
  cases hsrc : conf.Stores.MoveSrc with
  | error err => simp [hsrc] at h
  | ok src =>
    cases hdst : conf.Stores.MoveDst with
    | error err => simp [hsrc, hdst] at h
    | ok dst =>
      simp only [hsrc, hdst] at h
      cases hrem : dst.RemoteStore with
      | none =>
        simp only [hrem, Prod.mk.injEq, Except.ok.injEq] at h
        obtain ⟨-, h2⟩ := h
        subst h2
        refine ⟨rfl, rfl, ?_, ?_⟩
        · simp [usedIndex, hrem]
        · intro remote idx h1
          simp [hrem] at h1
      | some remote =>
        cases hidx : conf.Index with
        | none =>
          simp only [hrem, hidx, Prod.mk.injEq, Except.ok.injEq] at h
          obtain ⟨-, h2⟩ := h
          subst h2
          refine ⟨rfl, rfl, ?_, ?_⟩
          · simp [usedIndex, hrem, hidx]
          · intro remote2 idx _ h1
            simp at h1
        | some idx =>
          simp only [hrem, hidx] at h
          rcases hp : remote.Index idx with ⟨idx2, err | err⟩
          · simp only [hp, Prod.mk.injEq, Except.ok.injEq] at h
            obtain ⟨-, h2⟩ := h
            subst h2
            refine ⟨rfl, rfl, ?_, ?_⟩
            · simp [usedIndex, hrem, hidx, hp]
            · intro remote2 idx3 h1 h3
              simp only [hrem, Option.some.injEq] at h1
              simp only [Option.some.injEq] at h3
              subst h1 h3
              simp [hp]
          · simp [hp] at h

/-- When both stores resolve and priming, if it is due, reports no error, the
setup succeeds with these stores and the index of lines 55-65. -/
theorem setup_of_resolved {K C : Type} (conf : Config K C) (src dst : Store K C)
    (hsrc : conf.Stores.MoveSrc = .ok src) (hdst : conf.Stores.MoveDst = .ok dst)
    (hprime : ∀ remote idx, dst.RemoteStore = some remote → conf.Index = some idx →
      (remote.Index idx).2 = none) :
    ∃ tr, setup conf = (tr, .ok (src, dst, usedIndex conf dst)) := by
  unfold setup usedIndex
  simp only [hsrc, hdst]
  cases hrem : dst.RemoteStore with
  | none => exact ⟨_, rfl⟩
  | some remote =>
    cases hidx : conf.Index with
    | none => exact ⟨_, rfl⟩
    | some idx =>
      have hp := hprime remote idx hrem hidx
      rcases hq : remote.Index idx with ⟨idx2, err | err⟩
      · exact ⟨[.MoveSrc, .MoveDst, .Index], by simp [hq]⟩
      · simp [hq] at hp

/-- The transfer of a key succeeds exactly when `src.Get` returns a chunk and
`dst.Put` accepts it. -/
theorem transfer_none_iff {K C : Type} [KeyString K] (env : Env K C) (k : K) :
    transfer env k = none ↔ ∃ c, env.src.Get k = .ok c ∧ env.dst.Put k c = none := by
  unfold transfer
  cases hg : env.src.Get k with
  | error err => simp
  | ok c =>
    cases hp : env.dst.Put k c with
    | none => simp [hp]
    | some err =>
      simp only [reduceCtorEq, Except.ok.injEq, exists_eq_left', false_iff]
      simp [hp]

theorem allMoved_iff_allOk {K C : Type} [KeyString K] (env : Env K C) :
    ∀ (ks out : List K), allMoved env.src env.dst env.kw out ks ↔ allOk env out ks := by
  intro ks
  induction ks with
  | nil => intro out; simp [allMoved, allOk]
  | cons k ks ih =>
    intro out
    simp only [allMoved, allOk, ih (out ++ [k]), transfer_none_iff]

/-- In every execution `kr.Read` is called at most once more than there are keys:
it is not called again after the call that returned an error. -/
theorem Move_reads {K C : Type} [KeyString K] (kr : KeyReader K) (kw : KeyWriter K)
    (conf : Config K C) (sched : List Action) (s : State K C)
    (hm : Move kr kw conf sched = some s) : s.reads ≤ kr.keys.length + 1 := by
  rcases hset : setup conf with ⟨tr, err | r⟩
  · have := (Move_failed kr kw conf tr err hset sched s hm).2
    subst this
    simp [failed]
  · have h := (Move_inv kr kw conf tr r hset sched s hm).reads_ok
    unfold readsOk at h
    have hk : (mkEnv kr kw conf r).kr.keys = kr.keys := rfl
    rw [hk] at h
    cases hf : s.fanout with
    | idle => simp [hf] at h
    | reading => simp only [hf] at h; omega
    | sending it => simp only [hf] at h; exact h.1
    | closed => simpa [hf] using h

/-- After a successful resolution, `Move` runs its goroutines on the stores
`conf.Stores` resolved. -/
theorem Move_resolved {K C : Type} [KeyString K] (kr : KeyReader K) (kw : KeyWriter K)
    (conf : Config K C) (src dst : Store K C)
    (hsrc : conf.Stores.MoveSrc = .ok src) (hdst : conf.Stores.MoveDst = .ok dst)
    (hprime : ∀ remote idx, dst.RemoteStore = some remote → conf.Index = some idx →
      (remote.Index idx).2 = none) :
    ∃ tr, setup conf = (tr, .ok (src, dst, usedIndex conf dst)) ∧
      mkEnv kr kw conf (src, dst, usedIndex conf dst) = envOf kr kw conf src dst := by
  obtain ⟨tr, h⟩ := setup_of_resolved conf src dst hsrc hdst hprime
  exact ⟨tr, h, rfl⟩

/-- What a successful setup hands to the goroutines is the environment of the
stores `conf.Stores` resolved. -/
theorem setup_env {K C : Type} [KeyString K] (kr : KeyReader K) (kw : KeyWriter K)
    (conf : Config K C) (tr : List (Event K C))
    (r : Store K C × Store K C × Option (KeyIndex K)) (h : setup conf = (tr, .ok r)) :
    mkEnv kr kw conf r = envOf kr kw conf r.1 r.2.1 := by
  have h3 := (setup_resolved conf tr r h).2.2.1
  simp only [mkEnv, envOf, ← h3]

/-- C4 (transfer correctness): with `src` and `dst` the stores `conf.Stores.MoveSrc()`
and `conf.Stores.MoveDst()` resolve, when `Move` returns nil every key `k` written
to `kw` was put with exactly the chunk `src.Get k` returned, `dst.Put` accepted
that chunk, and `dst`, read as a mapping, holds that chunk under `k` afterwards,
whatever it held before. -/
theorem C4_transfer_correct {K C : Type} [KeyString K] [DecidableEq K] (kr : KeyReader K)
    (kw : KeyWriter K) (conf : Config K C) (src dst : Store K C)
    (hsrc : conf.Stores.MoveSrc = .ok src) (hdst : conf.Stores.MoveDst = .ok dst)
    (sched : List Action) (s : State K C)
    (hm : Move kr kw conf sched = some s) (hret : s.fanin = .returned none) :
    ∀ k ∈ s.out, ∃ c, src.Get k = .ok c ∧ Event.Put k c ∈ s.trace ∧ dst.Put k c = none ∧
      ∀ m, contents dst m s.trace k = some c := by
  rcases hset : setup conf with ⟨tr, err | r⟩
  · have := (Move_failed kr kw conf tr err hset sched s hm).2
    subst this
    simp [failed] at hret
  · obtain ⟨r1, r2, r3, -⟩ := setup_resolved conf tr r hset
    rw [hsrc] at r1
    rw [hdst] at r2
    simp only [Except.ok.injEq] at r1 r2
    intro k hk
    have hinv := Move_inv kr kw conf tr r hset sched s hm
    obtain ⟨-, -, c, hget, hput, -, hmem⟩ := hinv.out_ok k hk
    have hget2 : src.Get k = .ok c := by rw [r1]; exact hget
    have hput2 : dst.Put k c = none := by rw [r2]; exact hput
    refine ⟨c, hget2, hmem, hput2, ?_⟩
    intro m
    apply contents_put dst k c hput2 s.trace m _ hmem
    intro c2 h2
    have h3 : (mkEnv kr kw conf r).src.Get k = .ok c2 := (hinv.trace_ok _ h2).2.2
    rw [hget] at h3
    simp only [Except.ok.injEq] at h3
    exact h3.symm

theorem C4_witness :
    (Move exReader exWriter exConf exScheduleAll = some exFinalAll ∧
      exFinalAll.out = [10, 11, 12] ∧
      contents exDst (fun _ => none) exFinalAll.trace 11 = some [11, 11]) ∧
    ∀ k ∈ exFinalAll.out, ∃ c, exSrc.Get k = .ok c ∧ Event.Put k c ∈ exFinalAll.trace ∧
      exDst.Put k c = none ∧ ∀ m, contents exDst m exFinalAll.trace k = some c :=
  ⟨⟨rfl, rfl, rfl⟩,
    C4_transfer_correct exReader exWriter exConf exSrc exDst rfl rfl exScheduleAll exFinalAll
      rfl rfl⟩

/-- C5 (no error is swallowed): `Move` always returns (every execution is finite
and can be continued until `Move` has returned); it returns nil exactly when
`conf.Stores.MoveSrc()` and `conf.Stores.MoveDst()` resolve stores `src` and `dst`,
priming (for a `RemoteStore` destination with a configured index) reports no
error, the reader ends with `io.EOF`, and for every non-skipped key `src.Get`
returns a chunk, `dst.Put` accepts it and `kw.Write` succeeds.  A `Write` that
fails for a key makes `Move` return the handler error with nothing written after
the keys before it. -/
theorem C5_nil_iff_all_succeed {K C : Type} [KeyString K] (kr : KeyReader K)
    (kw : KeyWriter K) (conf : Config K C) :
    (∃ sched s res, Move kr kw conf sched = some s ∧ s.fanin = .returned res) ∧
    (∀ sched s, Move kr kw conf sched = some s →
      sched.length ≤ 7 * (kr.keys.length + 1) + 1 ∧
      ∃ sched2 s2 res, Move kr kw conf (sched ++ sched2) = some s2 ∧
        s2.fanin = .returned res) ∧
    (∀ sched s res, Move kr kw conf sched = some s → s.fanin = .returned res →
      (res = none ↔
        ∃ src dst, conf.Stores.MoveSrc = .ok src ∧ conf.Stores.MoveDst = .ok dst ∧
          (∀ remote idx, dst.RemoteStore = some remote → conf.Index = some idx →
            (remote.Index idx).2 = none) ∧
          kr.last.2 = .EOF ∧
          allMoved src dst kw [] (todo (envOf kr kw conf src dst) kr.keys))) ∧
    (∀ src dst a b k c err, conf.Stores.MoveSrc = .ok src → conf.Stores.MoveDst = .ok dst →
      (∀ remote idx, dst.RemoteStore = some remote → conf.Index = some idx →
        (remote.Index idx).2 = none) →
      todo (envOf kr kw conf src dst) kr.keys = a ++ k :: b → allMoved src dst kw [] a →
      src.Get k = .ok c → dst.Put k c = none → kw.Write a k = some err →
      ∀ sched s res, Move kr kw conf sched = some s → s.fanin = .returned res →
        res = some (.New ("handler failed for key " ++ "'" ++ KeyString.str k ++ "'" ++ ": " ++
          err.message)) ∧ s.out = a) := by
  refine ⟨Move_completes kr kw conf,
    fun sched s hm => ⟨Move_terminates kr kw conf sched s hm, Move_extends kr kw conf sched s hm⟩,
    ?_, ?_⟩
  · intro sched s res hm hret
    rcases hset : setup conf with ⟨tr, err | r⟩
    · have := (Move_failed kr kw conf tr err hset sched s hm).2
      subst this
      simp only [failed, FanIn.returned.injEq] at hret
      subst hret
      simp only [reduceCtorEq, false_iff, not_exists, not_and]
      intro src dst hsrc hdst hprime
      obtain ⟨tr2, h2⟩ := setup_of_resolved conf src dst hsrc hdst hprime
      rw [hset] at h2
      simp at h2
    · have h := Move_returned kr kw conf tr r hset sched s res hm hret
      obtain ⟨r1, r2, -, r4⟩ := setup_resolved conf tr r hset
      have henv := setup_env kr kw conf tr r hset
      constructor
      · intro hres
        subst hres
        rw [future_zero] at h
        obtain ⟨-, h2, h3⟩ := drain_none _ _ _ _ h.symm
        refine ⟨r.1, r.2.1, r1, r2, r4, h2, ?_⟩
        rw [henv] at h3
        exact (allMoved_iff_allOk (envOf kr kw conf r.1 r.2.1) _ _).mpr h3
      · rintro ⟨src, dst, hsrc, hdst, -, heof, hok⟩
        rw [hsrc] at r1
        rw [hdst] at r2
        simp only [Except.ok.injEq] at r1 r2
        subst r1 r2
        have hok2 := (allMoved_iff_allOk (envOf kr kw conf r.1 r.2.1) _ _).mp hok
        rw [← henv] at hok2
        rw [result_ok _ hok2] at h
        have heof2 : (mkEnv kr kw conf r).kr.last.2 = .EOF := heof
        simp only [heof2, Prod.mk.injEq] at h
        exact h.1
  · intro src dst a b k c err hsrc hdst hprime hsplit ha hg hp hw sched s res hm hret
    obtain ⟨tr, hset, henv⟩ := Move_resolved kr kw conf src dst hsrc hdst hprime
    have h := Move_returned kr kw conf tr _ hset sched s res hm hret
    rw [henv] at h
    have ha2 := (allMoved_iff_allOk (envOf kr kw conf src dst) a []).mp ha
    have hk : transfer (envOf kr kw conf src dst) k = none :=
      (transfer_none_iff _ k).mpr ⟨c, hg, hp⟩
    rw [result_write_fail _ a b k err hsplit ha2 hk hw] at h
    simp only [Prod.mk.injEq] at h
    exact ⟨h.1, h.2⟩

theorem C5_witness :
    ((Move exReader exWriterFails exConf (exOne ++ exOne ++ exOne)).map (fun s => s.out) =
        some [10, 11] ∧
      (Move exReader exWriter exConfFull exOne).map retval =
        some (some (some (.New "failed to put chunk '10' to remote: disk full")))) ∧
    ∀ sched s res, Move exReader exWriterFails exConf sched = some s →
      s.fanin = .returned res →
      res = some (.New "handler failed for key '12': pipe closed") ∧ s.out = [10, 11] :=
  ⟨⟨rfl, rfl⟩, (C5_nil_iff_all_succeed exReader exWriterFails exConf).2.2.2 exSrc exDst
    [10, 11] [] 12 [12, 12] _ rfl rfl (fun _ _ h => by simp [exDst] at h) rfl
    ⟨⟨_, rfl, rfl⟩, rfl, ⟨_, rfl, rfl⟩, rfl, trivial⟩ rfl rfl rfl⟩

/-- C6 (end of the key reader): in no execution is `kr.Read` called again after the
call that failed.  With `src` and `dst` the stores `conf.Stores` resolves, priming
reporting no error and every non-skipped key fetched, put and written without
error, `Move` returns, having written exactly the non-skipped keys in order; it
returns nil when the reader ended with `io.EOF`, and otherwise the error whose
text is "failed to iterate: failed to iterate into next key: " followed by the
text of the reader's error. -/
theorem C6_reader_termination {K C : Type} [KeyString K] (kr : KeyReader K)
    (kw : KeyWriter K) (conf : Config K C) :
    (∀ sched s, Move kr kw conf sched = some s → s.reads ≤ kr.keys.length + 1) ∧
    (∀ src dst, conf.Stores.MoveSrc = .ok src → conf.Stores.MoveDst = .ok dst →
      (∀ remote idx, dst.RemoteStore = some remote → conf.Index = some idx →
        (remote.Index idx).2 = none) →
      allMoved src dst kw [] (todo (envOf kr kw conf src dst) kr.keys) →
      (∃ sched s res, Move kr kw conf sched = some s ∧ s.fanin = .returned res) ∧
      ∀ sched s res, Move kr kw conf sched = some s → s.fanin = .returned res →
        s.out = todo (envOf kr kw conf src dst) kr.keys ∧
        (kr.last.2 = .EOF → res = none) ∧
        (kr.last.2 ≠ .EOF → res = some (.New ("failed to iterate: " ++
          ("failed to iterate into next key: " ++ kr.last.2.message))))) := by
  refine ⟨fun sched s hm => Move_reads kr kw conf sched s hm, ?_⟩
  intro src dst hsrc hdst hprime hall
  refine ⟨Move_completes kr kw conf, ?_⟩
  intro sched s res hm hret
  obtain ⟨tr, hset, henv⟩ := Move_resolved kr kw conf src dst hsrc hdst hprime
  have h := Move_returned kr kw conf tr _ hset sched s res hm hret
  rw [henv] at h
  have hall2 := (allMoved_iff_allOk (envOf kr kw conf src dst) _ []).mp hall
  rw [result_ok _ hall2] at h
  have hl : (envOf kr kw conf src dst).kr.last.2 = kr.last.2 := rfl
  have hk : (envOf kr kw conf src dst).kr.keys = kr.keys := rfl
  rw [hl, hk] at h
  simp only [Prod.mk.injEq] at h
  refine ⟨h.2, ?_, ?_⟩
  · intro heof
    rw [heof] at h
    exact h.1
  · intro hne
    cases hlast : kr.last.2 with
    | EOF => exact absurd hlast hne
    | New text =>
      rw [hlast] at h
      exact h.1

theorem C6_witness :
    (∀ sched s, Move exReaderFails exWriter exConf sched = some s → s.reads ≤ 2 + 1) ∧
    (∃ sched s res, Move exReaderFails exWriter exConf sched = some s ∧
      s.fanin = .returned res) ∧
    ∀ sched s res, Move exReaderFails exWriter exConf sched = some s →
      s.fanin = .returned res →
      s.out = [10, 12] ∧
      (exReaderFails.last.2 = .EOF → res = none) ∧
      (exReaderFails.last.2 ≠ .EOF → res = some (.New
        "failed to iterate: failed to iterate into next key: disk gone")) :=
  ⟨(C6_reader_termination exReaderFails exWriter exConf).1,
    (C6_reader_termination exReaderFails exWriter exConf).2 exSrc exDst rfl rfl
      (fun _ _ h => by simp [exDst] at h)
      ⟨⟨_, rfl, rfl⟩, rfl, ⟨_, rfl, rfl⟩, rfl, trivial⟩⟩

/-- C10 (an index needs a remote destination): when the destination `dst` that
`conf.Stores.MoveDst()` resolves is no `RemoteStore`, no execution primes or
consults the index, configured or not.  A worker is started for every key read,
in order; for each such key `src.Get` was called or its worker is about to call
it, and once it returned a chunk `dst.Put` was called with that chunk or the
worker is about to.  When `Move` returns nil every input key was fetched from
`src`, put into `dst`, which accepted it and holds it afterwards, and written. -/
theorem C10_index_needs_remote {K C : Type} [KeyString K] [DecidableEq K] (kr : KeyReader K)
    (kw : KeyWriter K) (conf : Config K C) (src dst : Store K C)
    (hsrc : conf.Stores.MoveSrc = .ok src) (hdst : conf.Stores.MoveDst = .ok dst)
    (hplain : dst.RemoteStore = none)
    (sched : List Action) (s : State K C) (hm : Move kr kw conf sched = some s) :
    Event.Index ∉ s.trace ∧ (∀ k, Event.Has k ∉ s.trace) ∧
      spawned s.trace = kr.keys.take s.reads ∧
      (∀ k ∈ kr.keys.take s.reads,
        pendingGet s k ∨
          (Event.Get k ∈ s.trace ∧
            ∀ c, src.Get k = .ok c → Event.Put k c ∈ s.trace ∨ pendingPut s k c)) ∧
      (s.fanin = .returned none → s.out = kr.keys ∧
        ∀ k ∈ kr.keys, Event.Get k ∈ s.trace ∧
          ∃ c, src.Get k = .ok c ∧ Event.Put k c ∈ s.trace ∧ dst.Put k c = none ∧
            ∀ m, contents dst m s.trace k = some c) := by
  have hset : setup conf = ([.MoveSrc, .MoveDst], .ok (src, dst, none)) := by
    simp [setup, hsrc, hdst, hplain]
  have hinv := Move_inv kr kw conf _ _ hset sched s hm
  have hno : ∀ e, e ∈ s.trace → eventOk (mkEnv kr kw conf (src, dst, none)) e := hinv.trace_ok
  have htodo : ∀ ks, todo (mkEnv kr kw conf (src, dst, none)) ks = ks := by
    intro ks
    simp [todo, skip, mkEnv]
  have hsp : spawned s.trace = kr.keys.take s.reads := by
    have := hinv.spawned_ok
    rw [htodo] at this
    exact this
  refine ⟨?_, ?_, hsp, ?_, ?_⟩
  · intro h
    have := hno _ h
    simp [eventOk, mkEnv] at this
  · intro k h
    have := hno _ h
    simp [eventOk, mkEnv] at this
  · intro k hk
    rw [← hsp] at hk
    exact Move_worked kr kw conf _ _ hset sched s hm k hk
  · intro hret
    have h := Move_returned kr kw conf _ _ hset sched s none hm hret
    rw [future_zero] at h
    obtain ⟨h1, -, -⟩ := drain_none _ _ _ _ h.symm
    rw [htodo] at h1
    have hout : s.out = kr.keys := by simpa using h1
    refine ⟨hout, ?_⟩
    intro k hk
    rw [← hout] at hk
    obtain ⟨-, -, c, hget, hput, hg, hp⟩ := hinv.out_ok k hk
    refine ⟨hg, c, hget, hp, hput, ?_⟩
    intro m
    apply contents_put dst k c hput s.trace m _ hp
    intro c2 h2
    have h3 : (mkEnv kr kw conf (src, dst, none)).src.Get k = .ok c2 := (hno _ h2).2.2
    rw [hget] at h3
    simp only [Except.ok.injEq] at h3
    exact h3.symm

theorem C10_witness :
    (Move exReader exWriter exConf exScheduleAll = some exFinalAll ∧
      exFinalAll.fanin = .returned none ∧ exFinalAll.out = [10, 11, 12] ∧
      contents exDst (fun _ => none) exFinalAll.trace 12 = some [12, 12]) ∧
    (Event.Index ∉ exFinalAll.trace ∧ (∀ k, Event.Has k ∉ exFinalAll.trace) ∧
      spawned exFinalAll.trace = exReader.keys.take exFinalAll.reads ∧
      (∀ k ∈ exReader.keys.take exFinalAll.reads,
        pendingGet exFinalAll k ∨
          (Event.Get k ∈ exFinalAll.trace ∧
            ∀ c, exSrc.Get k = .ok c →
              Event.Put k c ∈ exFinalAll.trace ∨ pendingPut exFinalAll k c)) ∧
      (exFinalAll.fanin = .returned none → exFinalAll.out = exReader.keys ∧
        ∀ k ∈ exReader.keys, Event.Get k ∈ exFinalAll.trace ∧
          ∃ c, exSrc.Get k = .ok c ∧ Event.Put k c ∈ exFinalAll.trace ∧
            exDst.Put k c = none ∧ ∀ m, contents exDst m exFinalAll.trace k = some c)) :=
  ⟨⟨rfl, rfl, rfl, rfl⟩,
    C10_index_needs_remote exReader exWriter exConf exSrc exDst rfl rfl rfl exScheduleAll
      exFinalAll rfl⟩

end bits

namespace libchunk

theorem splitChunks_ok {K : Type} [DecidableEq K] (cipher : Cipher K) (secret : Bytes) :
    ∀ (ps : List Bytes) (st : ChunkStore K) (keys : List K),
      (∀ k, st.writeFails k = false) →
      (∀ p ∈ ps, ∀ q ∈ ps, (cipher.Seal p secret).1 = (cipher.Seal q secret).1 → p = q) →
      ∃ st2, splitChunks cipher secret ps st keys =
          .ok (st2, keys ++ ps.map (fun p => (cipher.Seal p secret).1)) ∧
        st2.readFails = st.readFails ∧
        (∀ p ∈ ps, st2.chunks (cipher.Seal p secret).1 = some (cipher.Seal p secret).2) ∧
        (∀ k, (∀ p ∈ ps, (cipher.Seal p secret).1 ≠ k) → st2.chunks k = st.chunks k) := by
  intro ps
  induction ps with
  | nil =>
    intro st keys _ _
    exact ⟨st, by simp [splitChunks], rfl, by simp, fun _ _ => rfl⟩
  | cons p ps ih =>
    intro st keys hw hinj
    have hinj2 : ∀ a ∈ ps, ∀ b ∈ ps,
        (cipher.Seal a secret).1 = (cipher.Seal b secret).1 → a = b :=
      fun a ha b hb h => hinj a (List.mem_cons_of_mem _ ha) b (List.mem_cons_of_mem _ hb) h
    obtain ⟨st2, h1, h2, h3, h4⟩ := ih
      { st with chunks := fun x =>
          if x = (cipher.Seal p secret).1 then some (cipher.Seal p secret).2 else st.chunks x }
      (keys ++ [(cipher.Seal p secret).1]) hw hinj2
    refine ⟨st2, ?_, h2, ?_, ?_⟩
    · simp only [splitChunks, ChunkStore.Put, hw, Bool.false_eq_true, if_false]
      rw [h1]
      simp
    · intro q hq
      rcases List.mem_cons.mp hq with heq | hin
      · subst heq
        by_cases hex : ∃ a ∈ ps, (cipher.Seal a secret).1 = (cipher.Seal q secret).1
        · obtain ⟨a, ha, hka⟩ := hex
          have : a = q := hinj a (List.mem_cons_of_mem _ ha) q (List.mem_cons_self _ _) hka
          subst this
          exact h3 a ha
        · rw [h4 _ (fun a ha hk => hex ⟨a, ha, hk⟩)]
          simp
      · exact h3 q hin
    · intro k hk
      rw [h4 k (fun a ha => hk a (List.mem_cons_of_mem _ ha))]
      have : k ≠ (cipher.Seal p secret).1 := fun h => hk p (List.mem_cons_self _ _) h.symm
      simp [this]

theorem joinKeys_ok {K : Type} (cipher : Cipher K) (secret : Bytes) (st : ChunkStore K)
    (writeFails : Bytes → Bytes → Bool) (hr : ∀ k, st.readFails k = false)
    (hw : ∀ out p, writeFails out p = false) :
    ∀ (ps : List Bytes) (out : Bytes),
      (∀ p ∈ ps, st.chunks (cipher.Seal p secret).1 = some (cipher.Seal p secret).2) →
      (∀ p ∈ ps, cipher.Open (cipher.Seal p secret).1 (cipher.Seal p secret).2 secret = some p) →
      joinKeys cipher secret st writeFails (ps.map (fun p => (cipher.Seal p secret).1)) out =
        .ok (out ++ ps.flatten) := by
  intro ps
  induction ps with
  | nil => intro out _ _; simp [joinKeys]
  | cons p ps ih =>
    intro out hc ho
    simp only [List.map_cons, joinKeys, ChunkStore.Get, hr, Bool.false_eq_true, if_false,
      hc p (List.mem_cons_self _ _), ho p (List.mem_cons_self _ _), hw]
    rw [ih (out ++ p) (fun q hq => hc q (List.mem_cons_of_mem _ hq))
      (fun q hq => ho q (List.mem_cons_of_mem _ hq))]
    simp

/-- C9 (round trip): with a cipher whose `Open` inverts `Seal`, chunks of the input
that do not collide on their key, a chunker that partitions the input, and a
store and an output that do not fail, `Split` succeeds and `Join` over the keys
it emitted, against the store it filled and under the same secret, succeeds and
writes exactly the input; `Join` over no keys succeeds and writes nothing. -/
theorem C9_round_trip {K : Type} [DecidableEq K] (cipher : Cipher K)
    (chunker : Bytes → List Bytes) (secret b : Bytes) (st : ChunkStore K)
    (writeFails : Bytes → Bytes → Bool)
    (hchunk : (chunker b).flatten = b)
    (hopen : ∀ p ∈ chunker b,
      cipher.Open (cipher.Seal p secret).1 (cipher.Seal p secret).2 secret = some p)
    (hinj : ∀ p ∈ chunker b, ∀ q ∈ chunker b,
      (cipher.Seal p secret).1 = (cipher.Seal q secret).1 → p = q)
    (hput : ∀ k, st.writeFails k = false) (hget : ∀ k, st.readFails k = false)
    (hout : ∀ out p, writeFails out p = false) :
    (∃ st2 keys, Split cipher chunker secret b st = .ok (st2, keys) ∧
      Join cipher secret keys false st2 writeFails = .ok b) ∧
    ∀ st2, Join cipher secret [] false st2 writeFails = .ok [] := by
  constructor
  · obtain ⟨st2, h1, h2, h3, -⟩ := splitChunks_ok cipher secret (chunker b) st [] hput hinj
    refine ⟨st2, _, h1, ?_⟩
    have hr : ∀ k, st2.readFails k = false := by
      intro k
      rw [h2]
      exact hget k
    simp only [Join, List.nil_append]
    rw [joinKeys_ok cipher secret st2 writeFails hr hout (chunker b) [] h3 hopen]
    simp [hchunk]
  · intro st2
    simp [Join, joinKeys]

theorem C9_witness :
    (∃ st2 keys, Split exCipher exChunker [7] [1, 2, 1] exStore = .ok (st2, keys) ∧
      Join exCipher [7] keys false st2 (fun _ _ => false) = .ok [1, 2, 1]) ∧
    ∀ st2, Join exCipher [7] [] false st2 (fun _ _ => false) = .ok [] :=
  C9_round_trip exCipher exChunker [7] [1, 2, 1] exStore (fun _ _ => false) (by decide)
    (by decide) (by decide) (fun _ => rfl) (fun _ => rfl) (fun _ _ => rfl)

end libchunk
